import Mathlib

/-!
Verification of the budget-line calculation engine of `my-budget-app`
(`src/renderer/src/App.tsx`).  Numbers are modelled as rationals: a JS
number is `Option ℚ`, where `some q` is a finite value and `none` stands
for the non-finite values (`NaN`, `±Infinity`).  This idealizes IEEE
doubles by exact arithmetic; every operation of the engine is otherwise
translated clause by clause from the source.
-/

namespace BudgetApp

attribute [local semireducible] Rat.mul Rat.add Rat.sub Rat.inv Rat.ofScientific

/-- A JS runtime value as passed to the numeric sanitizer `safeVal`. -/
inductive JSVal where
  | num (v : Option ℚ)
  | str (s : String)
  | nullish
deriving Repr, DecidableEq

/-- The numeric prefix accepted by JS `parseFloat`, restricted to plain
decimal notation (optional sign, integer digits, optional fractional
digits).  The exponent form and the `Infinity` literal are not modelled;
on those inputs `parseFloat` yields a value that the callers in the app
discard as non-finite anyway.  `none` is JS `NaN`. -/
def jsParseFloatL (chars : List Char) : Option ℚ :=
  let signRest : ℚ × List Char :=
    match chars with
    | '-' :: cs => (-1, cs)
    | '+' :: cs => (1, cs)
    | cs => (1, cs)
  let intDigits := signRest.2.takeWhile Char.isDigit
  let rest2 := signRest.2.dropWhile Char.isDigit
  let fracDigits : List Char :=
    match rest2 with
    | '.' :: cs => cs.takeWhile Char.isDigit
    | _ => []
  if intDigits.isEmpty && fracDigits.isEmpty then none
  else
    let intVal : ℚ := intDigits.foldl (fun a c => a * 10 + ((c.toNat - '0'.toNat : ℕ) : ℚ)) 0
    let fracVal : ℚ :=
      (fracDigits.foldl (fun a c => a * 10 + ((c.toNat - '0'.toNat : ℕ) : ℚ)) 0) /
        (10 ^ fracDigits.length)
    some (signRest.1 * (intVal + fracVal))

/-- JS `parseFloat` on a string. -/
def jsParseFloat (s : String) : Option ℚ := jsParseFloatL s.toList

/-- JS `String.prototype.trim` (drop surrounding whitespace). -/
def trimChars (l : List Char) : List Char :=
  ((l.dropWhile Char.isWhitespace).reverse.dropWhile Char.isWhitespace).reverse

/-- JS `.replace(/,/g, \'\')` — drop every comma. -/
def stripCommas (l : List Char) : List Char := l.filter (fun c => c ≠ ',')

/-- `safeVal` (App.tsx:61): finite numbers pass through, falsy values and
non-finite numbers become 0, strings are stripped of commas, trimmed and
run through `parseFloat`, defaulting to 0. -/
def safeVal : JSVal → ℚ
  | .num v => v.getD 0
  | .nullish => 0
  | .str s => if s = "" then 0 else (jsParseFloatL (trimChars (stripCommas s.toList))).getD 0

/-- `safeVal` applied to a number-typed field (the only use inside the
recalculation engine). -/
def sanitizeNum (v : Option ℚ) : ℚ := safeVal (.num v)

/-- JS `String.prototype.lastIndexOf` for a single character. -/
def lastIdxOf (l : List Char) (c : Char) : Int :=
  (l.foldl (fun (p : Int × Int) ch => (p.1 + 1, if ch = c then p.1 else p.2)) (0, -1)).2

/-- JS `.replace(/,/g, \'.\')` — turn every comma into a dot. -/
def commasToDots (l : List Char) : List Char :=
  l.map (fun c => if c = ',' then '.' else c)

/-- `normalizeNumberToken` (App.tsx:70): decide between thousands-separator
and decimal-comma readings of a digit token. -/
def normalizeNumberToken (t : List Char) : List Char :=
  if t.contains ',' && t.contains '.' then
    if lastIdxOf t ',' > lastIdxOf t '.' then commasToDots (t.filter (fun c => c ≠ '.'))
    else stripCommas t
  else if t.contains ',' then commasToDots t
  else t

/-- The character class `[0-9+\-*/().,%]` of `normalizeNumericExpression`. -/
def isAllowedChar (c : Char) : Bool :=
  c.isDigit || c = '+' || c = '-' || c = '*' || c = '/' || c = '(' || c = ')' ||
    c = '.' || c = ',' || c = '%'

/-- Smallest power of ten clearing the denominator of `q` (40 is far above
anything the token grammar can produce). -/
def decExp (q : ℚ) : Option Nat :=
  (List.range 40).find? (fun k => (q * 10 ^ k).den = 1)

/-- JS `String(value)` for the nonnegative decimal rationals produced by
token normalization: the shortest exact decimal form. -/
def ratToDecimalChars (q : ℚ) : List Char :=
  match decExp q with
  | none => ['0']
  | some 0 => (toString q.num).toList
  | some (k + 1) =>
      let n := (q * 10 ^ (k + 1)).num.toNat
      let ds := (toString n).toList
      let ds := if ds.length ≤ k + 1 then List.replicate (k + 2 - ds.length) '0' ++ ds else ds
      ds.take (ds.length - (k + 1)) ++ '.' :: ds.drop (ds.length - (k + 1))

/-- One scanning step of the token-replacement regex
`(\d[\d.,]*)(%?)` of `normalizeNumericExpression`, fuelled by the input
length (a digit always starts a token, so fuel `length + 1` suffices). -/
def replaceTokensF : Nat → List Char → List Char
  | 0, _ => []
  | _ + 1, [] => []
  | f + 1, c :: cs =>
      if c.isDigit then
        let tokTail := cs.takeWhile (fun ch => ch.isDigit || ch = '.' || ch = ',')
        let rest := cs.dropWhile (fun ch => ch.isDigit || ch = '.' || ch = ',')
        let pctRest : Bool × List Char :=
          match rest with
          | '%' :: rs => (true, rs)
          | rs => (false, rs)
        let normalized := normalizeNumberToken (c :: tokTail)
        let out : List Char :=
          match jsParseFloatL normalized with
          | none => ['0']
          | some v => ratToDecimalChars (if pctRest.1 then v / 100 else v)
        out ++ replaceTokensF f pctRest.2
      else c :: replaceTokensF f cs

/-- `normalizeNumericExpression` (App.tsx:82): trim, strip a leading `=`,
drop whitespace, reject anything outside the expression character class,
and replace every numeric token by its canonical dot-decimal form. -/
def normalizeNumericExpressionL (raw : String) : List Char :=
  let expr := trimChars raw.toList
  let expr := match expr with
    | '=' :: cs => cs
    | cs => cs
  let expr := expr.filter (fun c => !c.isWhitespace)
  if expr = [] then []
  else if expr.all isAllowedChar then replaceTokensF (expr.length + 1) expr
  else []

/-- `normalizeNumericExpression` as a string-to-string function. -/
def normalizeNumericExpression (raw : String) : String :=
  String.mk (normalizeNumericExpressionL raw)

/-- `readNumber`'s digit/dot span (at most one dot). -/
def numSpan : List Char → Bool → List Char
  | [], _ => []
  | c :: cs, hasDot =>
      if c.isDigit then c :: numSpan cs hasDot
      else if c = '.' && !hasDot then c :: numSpan cs true
      else []

/-- `readNumber` inside `evaluateExpression` (App.tsx:99): read a decimal
literal at position `i`, failing on an empty or lone-dot token. -/
def readNumber (s : List Char) (i : Nat) : Option (ℚ × Nat) :=
  let rest := s.drop i
  let tok : List Char :=
    match rest with
    | '.' :: cs => '.' :: numSpan cs true
    | cs => numSpan cs false
  if tok = [] || tok = ['.'] then none
  else (jsParseFloatL tok).map (fun q => (q, i + tok.length))

/-- JS division inside the expression evaluator.  Division by zero yields a
non-finite IEEE value, which the caller rejects; it is modelled as failure. -/
def jsDivE (a b : ℚ) : Option ℚ := if b = 0 then none else some (a / b)

/-- Parser mode: the mutually recursive procedures `parseFactor`,
`parseTerm` (with its `while` loop) and `parseExpression` (with its
`while` loop) of `evaluateExpression`, fused into one fuelled function. -/
inductive PMode where
  | factor
  | term
  | termLoop (v : ℚ)
  | expr
  | exprLoop (v : ℚ)

/-- The recursive-descent evaluator of App.tsx:96-180.  Fuel bounds the
call depth; `none` is a thrown error. -/
def parseRun : Nat → PMode → List Char → Nat → Option (ℚ × Nat)
  | 0, _, _, _ => none
  | f + 1, .factor, s, i =>
      match s[i]? with
      | some '+' => parseRun f .factor s (i + 1)
      | some '-' => (parseRun f .factor s (i + 1)).map (fun r => (-r.1, r.2))
      | some '(' =>
          (parseRun f .expr s (i + 1)).bind (fun r =>
            if s[r.2]? = some ')' then some (r.1, r.2 + 1) else none)
      | _ => readNumber s i
  | f + 1, .term, s, i =>
      (parseRun f .factor s i).bind (fun r => parseRun f (.termLoop r.1) s r.2)
  | f + 1, .termLoop v, s, i =>
      match s[i]? with
      | some '*' => (parseRun f .factor s (i + 1)).bind (fun r => parseRun f (.termLoop (v * r.1)) s r.2)
      | some '/' =>
          (parseRun f .factor s (i + 1)).bind (fun r =>
            (jsDivE v r.1).bind (fun q => parseRun f (.termLoop q) s r.2))
      | _ => some (v, i)
  | f + 1, .expr, s, i =>
      (parseRun f .term s i).bind (fun r => parseRun f (.exprLoop r.1) s r.2)
  | f + 1, .exprLoop v, s, i =>
      match s[i]? with
      | some '+' => (parseRun f .term s (i + 1)).bind (fun r => parseRun f (.exprLoop (v + r.1)) s r.2)
      | some '-' => (parseRun f .term s (i + 1)).bind (fun r => parseRun f (.exprLoop (v - r.1)) s r.2)
      | _ => some (v, i)

/-- `evaluateExpression` (App.tsx:96): run the expression parser and require
the whole input to be consumed. -/
def evaluateExpressionL (s : List Char) : Option ℚ :=
  match parseRun (8 * s.length + 8) .expr s 0 with
  | some r => if r.2 = s.length then some r.1 else none
  | none => none

/-- `evaluateExpression` on a string. -/
def evaluateExpression (e : String) : Option ℚ := evaluateExpressionL e.toList

/-- `parseNumericInput` (App.tsx:182): normalize then evaluate; `none` is
the `NaN` sentinel. -/
def parseNumericInput (raw : String) : Option ℚ :=
  if raw = "" then none
  else
    let expr := normalizeNumericExpressionL raw
    if expr = [] then none
    else evaluateExpressionL expr

/-- The `BudgetLine` record (App.tsx:16).  Numeric fields are JS numbers
(`Option ℚ`, `none` = non-finite); `parentId` is the optional parent
reference. -/
structure BudgetLine where
  id : String
  sectionId : String := ""
  parentId : Option String := none
  category : String := ""
  description : String := ""
  notes : Option String := none
  showNotes : Option Bool := none
  quantity : Option ℚ := some 1
  frequency : Option ℚ := some 1
  unit : String := ""
  unit_cost : Option ℚ := some 0
  total : Option ℚ := some 0
  selected : Bool := false
deriving Repr, DecidableEq

/-- JS truthiness of an optional string (`undefined` and `""` are falsy);
this is the `!l.parentId` test used throughout the source. -/
def truthyStr : Option String → Bool
  | none => false
  | some s => s ≠ ""

/-- The id-keyed map state threaded through `recalcHierarchy`; a JS `Map`
used only through `get`/`set`. -/
def St := String → Option BudgetLine

/-- `new Map(allLines.map(l => [l.id, {...l}]))` — later entries win. -/
def buildById (ls : List BudgetLine) : St :=
  ls.foldl (fun m l => fun k => if k = l.id then some l else m k) (fun _ => none)

/-- The parent→children adjacency of `recalcHierarchy` (App.tsx:657-663):
a line is recorded as a child only when its `parentId` is truthy and
resolves in the id map. -/
def buildChildren (byId : St) (ls : List BudgetLine) : String → List String :=
  ls.foldl
    (fun m l =>
      match l.parentId with
      | none => m
      | some p =>
          if p = "" then m
          else if (byId p).isSome then fun k => if k = p then m k ++ [l.id] else m k
          else m)
    (fun _ => [])

/-- The per-line condition under which `buildChildren` records a line as a
child of key `q`. -/
def childKeep (byId : St) (q : String) (l : BudgetLine) : Bool :=
  match l.parentId with
  | none => false
  | some p => p = q && !(p = "") && (byId p).isSome

/-- `computeTotal` (App.tsx:666-691), with the `byId` map passed as explicit
state.  The `childrenIds.reduce((acc, childId) => acc + computeTotal(childId), 0)`
fold threads the state left to right.  Fuel bounds the recursion depth;
`length + 1` suffices whenever the walk cannot revisit a node (JS recursion
is unbounded and would overflow otherwise). -/
def computeTotal (cm : String → List String) : Nat → String → St → ℚ × St
  | 0, _, st => (0, st)
  | fuel + 1, lid, st =>
      match st lid with
      | none => (0, st)
      | some line =>
          let qty := sanitizeNum line.quantity
          let freq := sanitizeNum line.frequency
          let cids := cm lid
          if cids = [] then
            let uCost := sanitizeNum line.unit_cost
            let t := qty * freq * uCost
            (t, fun k => if k = lid then
                  some { line with quantity := some qty, frequency := some freq,
                                   unit_cost := some uCost, total := some t }
                else st k)
          else
            let res := cids.foldl
              (fun acc cid =>
                let r := computeTotal cm fuel cid acc.2
                (acc.1 + r.1, r.2))
              (0, st)
            let t := qty * freq * res.1
            (t, fun k => if k = lid then
                  some { line with quantity := some qty, frequency := some freq,
                                   unit_cost := some res.1, total := some t }
                else res.2 k)

/-- The root loop of `recalcHierarchy` (App.tsx:693-695): starting from the
id map, walk every root line (`!l.parentId`) and keep the resulting map. -/
def recalcFinalState (allLines : List BudgetLine) : St :=
  allLines.foldl
    (fun st l => if truthyStr l.parentId then st
      else (computeTotal (buildChildren (buildById allLines) allLines)
        (allLines.length + 1) l.id st).2)
    (buildById allLines)

/-- `recalcHierarchy` (App.tsx:651-698): build the maps, walk every root,
and read every line back from the map (App.tsx:697). -/
def recalcHierarchy (allLines : List BudgetLine) : List BudgetLine :=
  allLines.map (fun l => (recalcFinalState allLines l.id).getD l)

/-- NaN-propagating JS addition. -/
def jsAdd : Option ℚ → Option ℚ → Option ℚ
  | some a, some b => some (a + b)
  | _, _ => none

/-- NaN-propagating JS triple product `q * f * u`. -/
def jsMul3 : Option ℚ → Option ℚ → Option ℚ → Option ℚ
  | some a, some b, some c => some (a * b * c)
  | _, _, _ => none

/-- `grandTotal` (App.tsx:986): fold of `acc + (curr.parentId ? 0 : curr.total)`. -/
def grandTotal (ls : List BudgetLine) : Option ℚ :=
  ls.foldl (fun acc l => jsAdd acc (if truthyStr l.parentId then some 0 else l.total)) (some 0)

/-- Sum of `total` over all lines (the double-counting comparison of P3). -/
def allLinesSum (ls : List BudgetLine) : Option ℚ :=
  ls.foldl (fun acc l => jsAdd acc l.total) (some 0)

/-- Sum of `total` over the lines with no parent reference at all. -/
def topLevelSum (ls : List BudgetLine) : Option ℚ :=
  (ls.filter (fun l => l.parentId = none)).foldl (fun acc l => jsAdd acc l.total) (some 0)

/-- Sum of `total` over the lines with a truthy parent reference. -/
def childLevelSum (ls : List BudgetLine) : Option ℚ :=
  (ls.filter (fun l => truthyStr l.parentId)).foldl (fun acc l => jsAdd acc l.total) (some 0)

/-- The lines whose `parentId` equals the given id (the claims' notion of
children). -/
def childrenOf (ls : List BudgetLine) (pid : String) : List BudgetLine :=
  ls.filter (fun l => l.parentId = some pid)

/-- Spec-side sum of the `total` fields of a list of lines. -/
def totalsSum (xs : List BudgetLine) : ℚ :=
  xs.foldl (fun a l => a + l.total.getD 0) 0

/-- The `while` loop of `getDescendantIds` (App.tsx:767-779).  The JS stack
pops from the end; it is modelled with the top of the stack at the head,
so the children are pushed reversed.  Fuel bounds the iteration count
(`length + 1` suffices when no id can be pushed twice). -/
def descGo (ls : List BudgetLine) : Nat → List String → List String → List String
  | 0, _, acc => acc
  | _ + 1, [], acc => acc
  | f + 1, c :: stack, acc =>
      let children := ls.filter (fun l => l.parentId = some c)
      descGo ls f ((children.map (fun l => l.id)).reverse ++ stack) (acc ++ children.map (fun l => l.id))

/-- `getDescendantIds` (App.tsx:767): ids of the lines reachable downward
from `lineId` through `parentId` links. -/
def getDescendantIds (lineId : String) (ls : List BudgetLine) : List String :=
  descGo ls (ls.length + 1) [lineId] []

/-- `deleteLine` (App.tsx:781-789): drop the line and everything
`getDescendantIds` collects. -/
def deleteLine (lineId : String) (prev : List BudgetLine) : List BudgetLine :=
  match prev.find? (fun l => l.id = lineId) with
  | none => prev
  | some _ =>
      let descendants := getDescendantIds lineId prev
      prev.filter (fun l => ¬(l.id = lineId) ∧ ¬(l.id ∈ descendants))

/-- The recursive `build` of `duplicateLine` (App.tsx:796-801): depth-first
preorder collection of the subtree rooted at `lid`.  Fuel bounds the
recursion depth. -/
def buildSubtree (ls : List BudgetLine) : Nat → String → List BudgetLine
  | 0, _ => []
  | f + 1, lid =>
      match ls.find? (fun l => l.id = lid) with
      | none => []
      | some line =>
          line :: (ls.filter (fun l => l.parentId = some lid)).flatMap
            (fun child => buildSubtree ls f child.id)

/-- The `idMap` of `duplicateLine`: the i-th subtree node's id is mapped to
the i-th freshly generated id (later `set`s win, as in a JS `Map`). -/
def dupIdMap (subtree : List BudgetLine) (gen : Nat → String) : String → Option String :=
  (subtree.enum.map (fun p => (p.2.id, gen p.1))).foldl
    (fun m kv => fun x => if x = kv.1 then some kv.2 else m x) (fun _ => none)

/-- The clone of one subtree node (App.tsx:806-810): fresh id, and a parent
reference remapped through `idMap` when the mapped value is truthy
(`idMap.get(l.parentId) || l.parentId`). -/
def dupClone (idMap : String → Option String) (l : BudgetLine) : BudgetLine :=
  { l with
    id := (idMap l.id).getD l.id
    parentId :=
      if truthyStr l.parentId then
        match l.parentId with
        | some p =>
            some (match idMap p with
                  | some v => if v = "" then p else v
                  | none => p)
        | none => none
      else l.parentId }

/-- `duplicateLine` (App.tsx:791-818).  `gen` supplies the values of the
successive `generateId()` calls (one per subtree node, in subtree order). -/
def duplicateLine (gen : Nat → String) (lineId : String) (prev : List BudgetLine) : List BudgetLine :=
  match prev.find? (fun l => l.id = lineId) with
  | none => prev
  | some _ =>
      let subtree := buildSubtree prev (prev.length + 1) lineId
      let idMap := dupIdMap subtree gen
      let clones := subtree.map (dupClone idMap)
      let indices := (subtree.map (fun l => prev.findIdx (fun p => p.id = l.id))).filter
        (fun i => i < prev.length)
      let insertAtI : Int :=
        (if indices ≠ [] then ((indices.foldl max 0 : Nat) : Int)
         else match prev.findIdx? (fun p => p.id = lineId) with
              | some i => (i : Int)
              | none => -1) + 1
      prev.take insertAtI.toNat ++ clones ++ prev.drop insertAtI.toNat

/-- `handleDropOnSection` (App.tsx:871-885): move the dragged line to the
target section as a top-level line and carry every descendant along. -/
def handleDropOnSection (draggedLineId : String) (sectionId : String)
    (prevLines : List BudgetLine) : List BudgetLine :=
  match prevLines.find? (fun l => l.id = draggedLineId) with
  | none => prevLines
  | some draggedLine =>
      let descendantIds := getDescendantIds draggedLine.id prevLines
      prevLines.map (fun l =>
        if l.id = draggedLineId then { l with sectionId := sectionId, parentId := none }
        else if l.id ∈ descendantIds then { l with sectionId := sectionId }
        else l)

/-- The field parameter of `handlePaste` (only the cell columns are
relevant; `quantity`, `frequency` and `unit_cost` are the numeric ones). -/
inductive PasteField where
  | quantity
  | frequency
  | unit_cost
  | description
  | category
  | unit
deriving Repr, DecidableEq

/-- Whether the pasted field takes the numeric path of `handlePaste`. -/
def PasteField.isNumeric : PasteField → Bool
  | .quantity | .frequency | .unit_cost => true
  | _ => false

/-- Read the pasted field back from a line (numeric fields only). -/
def PasteField.getNum (f : PasteField) (l : BudgetLine) : Option ℚ :=
  match f with
  | .quantity => l.quantity
  | .frequency => l.frequency
  | .unit_cost => l.unit_cost
  | _ => none

/-- One row application of `handlePaste` (App.tsx:900-907): numeric fields
get `Number.isFinite(parsed) ? parsed : 0` and the row total is refreshed
as `u.quantity * u.frequency * u.unit_cost`; text fields get the raw cell. -/
def applyPasteCell (f : PasteField) (cell : String) (l : BudgetLine) : BudgetLine :=
  match f with
  | .quantity =>
      let u := { l with quantity := some ((parseNumericInput cell).getD 0) }
      { u with total := jsMul3 u.quantity u.frequency u.unit_cost }
  | .frequency =>
      let u := { l with frequency := some ((parseNumericInput cell).getD 0) }
      { u with total := jsMul3 u.quantity u.frequency u.unit_cost }
  | .unit_cost =>
      let u := { l with unit_cost := some ((parseNumericInput cell).getD 0) }
      { u with total := jsMul3 u.quantity u.frequency u.unit_cost }
  | .description => { l with description := cell }
  | .category => { l with category := cell }
  | .unit => { l with unit := cell }

/-- Split pasted text on `\r\n`, `\n` or `\r` (the `text.split(/\r\n|\n|\r/)`
of `handlePaste`). -/
def splitRowsGo : List Char → List Char → List String
  | [], cur => [String.mk cur.reverse]
  | '\r' :: '\n' :: cs, cur => String.mk cur.reverse :: splitRowsGo cs []
  | '\r' :: cs, cur => String.mk cur.reverse :: splitRowsGo cs []
  | '\n' :: cs, cur => String.mk cur.reverse :: splitRowsGo cs []
  | c :: cs, cur => splitRowsGo cs (c :: cur)

/-- The row list of `handlePaste`: split on line breaks, drop empty rows. -/
def pasteRows (text : String) : List String :=
  (splitRowsGo text.toList []).filter (fun r => r ≠ "")

/-- `rowText.split('\t')[0]`. -/
def firstCol (rowText : String) : String :=
  String.mk (rowText.toList.takeWhile (fun c => c ≠ '\t'))

/-- One iteration of the `rows.forEach` of `handlePaste`: overwrite the line
at `startIndex + i` when it exists (`targetIndex < newLines.length`). -/
def pasteStep (f : PasteField) (startIndex : Nat) (cur : List BudgetLine)
    (ri : Nat × String) : List BudgetLine :=
  match cur[startIndex + ri.1]? with
  | some currentLine => cur.set (startIndex + ri.1) (applyPasteCell f (firstCol ri.2) currentLine)
  | none => cur

/-- `handlePaste` (App.tsx:887-912).  Single-line text is left to the
default input handling (the list is returned unchanged); otherwise each row
overwrites one consecutive line starting at `lineId`, stopping at the end. -/
def handlePaste (lineId : String) (f : PasteField) (text : String)
    (prevLines : List BudgetLine) : List BudgetLine :=
  if ¬(text.toList.contains '\n' ∨ text.toList.contains '\r') then prevLines
  else
    match prevLines.findIdx? (fun l => l.id = lineId) with
    | none => prevLines
    | some startIndex =>
        (pasteRows text).enum.foldl (pasteStep f startIndex) prevLines

/-- One parent step of the raw hierarchy: some line of `ls` has id `b` and
parent reference `a` (the `l.parentId === current` filter of
`getDescendantIds`). -/
def pcStep (ls : List BudgetLine) (a b : String) : Prop :=
  ∃ l ∈ ls, l.id = b ∧ l.parentId = some a

/-- `b` is a strict transitive descendant of `a` in the raw hierarchy. -/
def IsDescendant (ls : List BudgetLine) (a b : String) : Prop :=
  Relation.TransGen (pcStep ls) a b

/-- One child step of the recalculation engine's adjacency map. -/
def cmStep (cm : String → List String) (a b : String) : Prop := b ∈ cm a

/-- Reachability in the recalculation engine's adjacency map. -/
def cmReach (cm : String → List String) (a b : String) : Prop :=
  Relation.ReflTransGen (cmStep cm) a b

/-- A rank function certifying that parent links are acyclic: every
resolving parent link goes strictly up in rank. -/
def RankedForest (ls : List BudgetLine) (rank : String → Nat) : Prop :=
  ∀ c ∈ ls, ∀ p ∈ ls, c.parentId = some p.id → rank c.id < rank p.id

/-- The id list of a line list. -/
def lineIds (ls : List BudgetLine) : List String := ls.map (fun l => l.id)

/-- The adjacency map the recalculation engine builds for a line list. -/
def lineChildren (ls : List BudgetLine) : String → List String :=
  buildChildren (buildById ls) ls

/-- The `total` stored in a map state at an id (0 when absent/non-finite). -/
def entryTotal (st : St) (c : String) : ℚ := ((st c).bind (fun l => l.total)).getD 0

/-- The fully recalculated entry for an original line `lj`, with the child
totals read from a map state. -/
def doneEntry (cm : String → List String) (st : St) (lj : BudgetLine) : BudgetLine :=
  let q := sanitizeNum lj.quantity
  let f := sanitizeNum lj.frequency
  let u := if cm lj.id = [] then sanitizeNum lj.unit_cost
           else (cm lj.id).foldl (fun a c => a + entryTotal st c) 0
  { lj with quantity := some q, frequency := some f,
            unit_cost := some u, total := some (q * f * u) }

/-- The recalculation walk has fully processed id `j` in state `st`. -/
def NodeDone (ls : List BudgetLine) (st : St) (j : String) : Prop :=
  ∃ lj ∈ ls, lj.id = j ∧ st j = some (doneEntry (lineChildren ls) st lj)

/-- The map entry at `j` is a fixed point of another recalculation visit. -/
def FixedAt (cm : String → List String) (st : St) (j : String) : Prop :=
  ∃ e, st j = some e ∧ ∃ q f u, e.quantity = some q ∧ e.frequency = some f ∧
    e.unit_cost = some u ∧ e.total = some (q * f * u) ∧
    (cm j ≠ [] → u = (cm j).foldl (fun a c => a + entryTotal st c) 0)

/-- An upward ancestor chain of the recalculation walk: `AncChain ls A lid`
says the walk can be invoked on `lid` with call stack `A` (nearest ancestor
first, ending at a root line). -/
def AncChain (ls : List BudgetLine) : List String → String → Prop
  | [], lid => ∃ r ∈ ls, r.id = lid ∧ ¬truthyStr r.parentId
  | q :: A, lid => lid ∈ lineChildren ls q ∧ AncChain ls A q

/-! ### Lemmas about the option-arithmetic folds of the aggregation layer -/

theorem jsAdd_some_zero_right (a : Option ℚ) : jsAdd a (some 0) = a := by
  cases a <;> simp [jsAdd]

theorem jsAdd_some_zero_left (a : Option ℚ) : jsAdd (some 0) a = a := by
  cases a <;> simp [jsAdd]

theorem jsAdd_left_comm (a b c : Option ℚ) : jsAdd a (jsAdd b c) = jsAdd b (jsAdd a c) := by
  cases a <;> cases b <;> cases c <;> simp [jsAdd] <;> ring

theorem foldl_jsAdd_acc (xs : List BudgetLine) (acc : Option ℚ) :
    xs.foldl (fun a l => jsAdd a l.total) acc =
      jsAdd acc (xs.foldl (fun a l => jsAdd a l.total) (some 0)) := by
  induction xs generalizing acc with
  | nil => simp [jsAdd_some_zero_right]
  | cons x t ih =>
      simp only [List.foldl_cons]
      rw [ih (jsAdd acc x.total), ih (jsAdd (some 0) x.total), jsAdd_some_zero_left]
      cases acc <;> cases x.total <;>
        cases t.foldl (fun a l => jsAdd a l.total) (some 0) <;> simp [jsAdd] <;> ring

theorem allLinesSum_cons (l : BudgetLine) (t : List BudgetLine) :
    allLinesSum (l :: t) = jsAdd l.total (allLinesSum t) := by
  simp only [allLinesSum, List.foldl_cons]
  rw [foldl_jsAdd_acc, jsAdd_some_zero_left]

theorem grandTotal_eq_filter_fold (ls : List BudgetLine) (acc : Option ℚ) :
    ls.foldl (fun a l => jsAdd a (if truthyStr l.parentId then some 0 else l.total)) acc =
      (ls.filter (fun l => !truthyStr l.parentId)).foldl (fun a l => jsAdd a l.total) acc := by
  induction ls generalizing acc with
  | nil => rfl
  | cons x t ih =>
      by_cases hx : truthyStr x.parentId
      · simp [List.foldl_cons, hx, jsAdd_some_zero_right, ih]
      · simp [List.foldl_cons, hx, ih]

theorem jsAdd_assoc (a b c : Option ℚ) : jsAdd (jsAdd a b) c = jsAdd a (jsAdd b c) := by
  cases a <;> cases b <;> cases c <;> simp [jsAdd] <;> ring

theorem allLinesSum_split (ls : List BudgetLine) :
    allLinesSum ls =
      jsAdd ((ls.filter (fun l => !truthyStr l.parentId)).foldl (fun a l => jsAdd a l.total) (some 0))
        (childLevelSum ls) := by
  unfold childLevelSum
  induction ls with
  | nil => simp [allLinesSum, jsAdd]
  | cons x t ih =>
      rw [allLinesSum_cons, ih]
      by_cases hx : truthyStr x.parentId
      · rw [List.filter_cons_of_neg (by simp [hx]), List.filter_cons_of_pos (by simp [hx])]
        rw [show (x :: t.filter (fun l => truthyStr l.parentId)).foldl
              (fun a l => jsAdd a l.total) (some 0) = jsAdd x.total
                ((t.filter (fun l => truthyStr l.parentId)).foldl (fun a l => jsAdd a l.total) (some 0)) by
          simp only [List.foldl_cons]
          rw [foldl_jsAdd_acc, jsAdd_some_zero_left]]
        rw [jsAdd_left_comm]
      · rw [List.filter_cons_of_pos (by simp [hx]), List.filter_cons_of_neg (by simp [hx])]
        rw [show (x :: t.filter (fun l => !truthyStr l.parentId)).foldl
              (fun a l => jsAdd a l.total) (some 0) = jsAdd x.total
                ((t.filter (fun l => !truthyStr l.parentId)).foldl (fun a l => jsAdd a l.total) (some 0)) by
          simp only [List.foldl_cons]
          rw [foldl_jsAdd_acc, jsAdd_some_zero_left]]
        rw [jsAdd_assoc]

/-- Under the claims' reading, a top-level line is one with `parentId = none`;
the code tests `!l.parentId`.  The two agree when no line stores the (falsy)
empty-string parent reference. -/
theorem topFilter_eq (ls : List BudgetLine) (hpp : ∀ l ∈ ls, l.parentId ≠ some "") :
    ls.filter (fun l => !truthyStr l.parentId) = ls.filter (fun l => l.parentId = none) := by
  apply List.filter_congr
  intro l hl
  match hpid : l.parentId with
  | none => simp [truthyStr]
  | some s =>
      have hs : s ≠ "" := by
        intro hs
        exact hpp l hl (by rw [hpid, hs])
      simp [truthyStr, hs]

/-- C9 (amended): the grand total is the sum of `total` over the lines with
no parent, and the sum over every line equals the grand total plus the sum
over child lines — so the two figures differ exactly when the child totals
do not sum to zero (with a zero-total subtree they coincide even though a
non-leaf line exists; see the counterexample). -/
theorem grand_total_split (ls : List BudgetLine)
    (hpp : ∀ l ∈ ls, l.parentId ≠ some "") :
    grandTotal ls = topLevelSum ls ∧
    allLinesSum ls = jsAdd (topLevelSum ls) (childLevelSum ls) ∧
    ((grandTotal ls).isSome →
      (allLinesSum ls = grandTotal ls ↔ childLevelSum ls = some 0)) := by
  have h1 : grandTotal ls = topLevelSum ls := by
    unfold grandTotal topLevelSum
    rw [grandTotal_eq_filter_fold, topFilter_eq ls hpp]
  have h2 : allLinesSum ls = jsAdd (topLevelSum ls) (childLevelSum ls) := by
    rw [allLinesSum_split, topFilter_eq ls hpp]
    rfl
  refine ⟨h1, h2, fun hg => ?_⟩
  rw [h2, ← h1]
  match hgt : grandTotal ls with
  | none => rw [hgt] at hg; simp at hg
  | some x =>
      match hc : childLevelSum ls with
      | none => simp [jsAdd]
      | some y =>
          constructor
          · intro heq
            simp only [jsAdd, Option.some.injEq] at heq
            have : y = 0 := by linarith [heq]
            rw [this]
          · intro heq
            have : y = 0 := by injection heq
            simp [jsAdd, this]

/-- C9 counterexample: a recalculated two-line document with a non-leaf
parent whose subtree totals are all zero; the sum over every line coincides
with the grand total even though a non-leaf line exists, contradicting the
claim that the two figures must then differ. -/
theorem grand_total_all_sum_coincide :
    (∃ l ∈ recalcHierarchy [
        { id := "p", sectionId := "s", quantity := some 1, frequency := some 1,
          unit_cost := some 7, total := some 7 },
        { id := "c", sectionId := "s", parentId := some "p", quantity := some 1,
          frequency := some 1, unit_cost := some 0 }],
      childrenOf (recalcHierarchy [
        { id := "p", sectionId := "s", quantity := some 1, frequency := some 1,
          unit_cost := some 7, total := some 7 },
        { id := "c", sectionId := "s", parentId := some "p", quantity := some 1,
          frequency := some 1, unit_cost := some 0 }]) l.id ≠ []) ∧
    allLinesSum (recalcHierarchy [
        { id := "p", sectionId := "s", quantity := some 1, frequency := some 1,
          unit_cost := some 7, total := some 7 },
        { id := "c", sectionId := "s", parentId := some "p", quantity := some 1,
          frequency := some 1, unit_cost := some 0 }]) =
      grandTotal (recalcHierarchy [
        { id := "p", sectionId := "s", quantity := some 1, frequency := some 1,
          unit_cost := some 7, total := some 7 },
        { id := "c", sectionId := "s", parentId := some "p", quantity := some 1,
          frequency := some 1, unit_cost := some 0 }]) := by decide

theorem grand_total_split_witness :
    (∀ l ∈ [({ id := "p", sectionId := "s" } : BudgetLine),
            { id := "c", sectionId := "s", parentId := some "p" }], l.parentId ≠ some "") ∧
    (grandTotal [({ id := "p", sectionId := "s" } : BudgetLine),
            { id := "c", sectionId := "s", parentId := some "p" }] =
        topLevelSum [({ id := "p", sectionId := "s" } : BudgetLine),
            { id := "c", sectionId := "s", parentId := some "p" }] ∧
      allLinesSum [({ id := "p", sectionId := "s" } : BudgetLine),
            { id := "c", sectionId := "s", parentId := some "p" }] =
        jsAdd (topLevelSum [({ id := "p", sectionId := "s" } : BudgetLine),
            { id := "c", sectionId := "s", parentId := some "p" }])
          (childLevelSum [({ id := "p", sectionId := "s" } : BudgetLine),
            { id := "c", sectionId := "s", parentId := some "p" }]) ∧
      ((grandTotal [({ id := "p", sectionId := "s" } : BudgetLine),
            { id := "c", sectionId := "s", parentId := some "p" }]).isSome →
        (allLinesSum [({ id := "p", sectionId := "s" } : BudgetLine),
            { id := "c", sectionId := "s", parentId := some "p" }] =
          grandTotal [({ id := "p", sectionId := "s" } : BudgetLine),
            { id := "c", sectionId := "s", parentId := some "p" }] ↔
          childLevelSum [({ id := "p", sectionId := "s" } : BudgetLine),
            { id := "c", sectionId := "s", parentId := some "p" }] = some 0))) :=
  ⟨by decide, grand_total_split _ (by decide)⟩

/-- C7: the numeric input parser meets the five specified vectors —
thousands separator with dot decimal, decimal-comma convention, percent
suffix, operator precedence, and the `NaN` sentinel for junk. -/
theorem numeric_input_vectors :
    parseNumericInput "1,234.56" = some (1234.56 : ℚ) ∧
    parseNumericInput "1.234,56" = some (1234.56 : ℚ) ∧
    parseNumericInput "10%" = some (0.1 : ℚ) ∧
    parseNumericInput "2+3*4" = some 14 ∧
    parseNumericInput "abc" = none := by decide

/-- C10: on a comma-without-dot numeral the expression parser reads the
comma as a decimal separator (`1.234`) while the recalculation sanitizer
`safeVal` strips it as a thousands separator (`1234`), so the two numeric
paths disagree on the same string. -/
theorem comma_only_two_paths_differ :
    parseNumericInput "1,234" = some (1.234 : ℚ) ∧
    safeVal (.str "1,234") = (1234 : ℚ) ∧
    parseNumericInput "1,234" ≠ some (safeVal (.str "1,234")) := by decide

/-! ### Lemmas about the bulk-paste fold -/

theorem pasteFold_length (f : PasteField) (start : Nat) :
    ∀ (rows : List String) (n : Nat) (cur : List BudgetLine),
      ((rows.enumFrom n).foldl (pasteStep f start) cur).length = cur.length := by
  intro rows
  induction rows with
  | nil => intro n cur; rfl
  | cons r rest ih =>
      intro n cur
      rw [List.enumFrom_cons, List.foldl_cons, ih]
      unfold pasteStep
      match h : cur[start + n]? with
      | some cl => simp
      | none => rfl

theorem pasteFold_below (f : PasteField) (start : Nat) :
    ∀ (rows : List String) (n : Nat) (cur : List BudgetLine) (t : Nat), t < start + n →
      ((rows.enumFrom n).foldl (pasteStep f start) cur)[t]? = cur[t]? := by
  intro rows
  induction rows with
  | nil => intro n cur t _; rfl
  | cons r rest ih =>
      intro n cur t ht
      rw [List.enumFrom_cons, List.foldl_cons]
      rw [ih (n + 1) _ t (by omega)]
      unfold pasteStep
      match h : cur[start + n]? with
      | some cl => exact List.getElem?_set_ne (by omega)
      | none => rfl

theorem pasteFold_target (f : PasteField) (start : Nat) :
    ∀ (rows : List String) (n : Nat) (cur : List BudgetLine) (i : Nat) (r : String)
      (l₀ : BudgetLine), rows[i]? = some r → cur[start + n + i]? = some l₀ →
      ((rows.enumFrom n).foldl (pasteStep f start) cur)[start + n + i]? =
        some (applyPasteCell f (firstCol r) l₀) := by
  intro rows
  induction rows with
  | nil => intro n cur i r l₀ hr; simp at hr
  | cons r₀ rest ih =>
      intro n cur i r l₀ hr hl
      rw [List.enumFrom_cons, List.foldl_cons]
      match i with
      | 0 =>
          have hr0 : r = r₀ := by
            simp only [List.getElem?_cons_zero, Option.some.injEq] at hr
            exact hr.symm
          have hlt : start + n < cur.length := by
            by_contra hge
            rw [List.getElem?_eq_none (by omega)] at hl
            exact Option.noConfusion hl
          have hstep : pasteStep f start cur (n, r₀) =
              cur.set (start + n) (applyPasteCell f (firstCol r₀) l₀) := by
            unfold pasteStep
            simp only
            rw [show cur[start + n]? = some l₀ from hl]
          simp only [Nat.add_zero]
          rw [hstep, pasteFold_below f start rest (n + 1) _ (start + n) (by omega)]
          rw [List.getElem?_set_self (by simpa using hlt), hr0]
      | i' + 1 =>
          have hr' : rest[i']? = some r := by simpa using hr
          have hl' : (pasteStep f start cur (n, r₀))[start + (n + 1) + i']? = some l₀ := by
            have hne : start + n ≠ start + (n + 1) + i' := by omega
            unfold pasteStep
            match h : cur[start + n]? with
            | some cl =>
                simp only
                rw [List.getElem?_set_ne hne]
                rw [show start + (n + 1) + i' = start + n + (i' + 1) by omega]
                exact hl
            | none =>
                simp only
                rw [show start + (n + 1) + i' = start + n + (i' + 1) by omega]
                exact hl
          have := ih (n + 1) (pasteStep f start cur (n, r₀)) i' r l₀ hr' hl'
          rw [show start + (n + 1) + i' = start + n + (i' + 1) by omega] at this
          exact this

/-- C8 (amended): during bulk paste into a numeric field, a row whose text
does not parse commits 0 into the field (`Number.isFinite(parsed) ? parsed : 0`)
— it does not keep the previous value. -/
theorem paste_invalid_commits_zero
    (ls : List BudgetLine) (lineId : String) (f : PasteField) (text : String)
    (start i : Nat) (r : String) (l₀ : BudgetLine)
    (hf : f.isNumeric = true)
    (htext : text.toList.contains '\n' ∨ text.toList.contains '\r')
    (hidx : ls.findIdx? (fun l => l.id = lineId) = some start)
    (hrow : (pasteRows text)[i]? = some r)
    (hparse : parseNumericInput (firstCol r) = none)
    (hl : ls[start + i]? = some l₀) :
    (handlePaste lineId f text ls)[start + i]? = some (applyPasteCell f (firstCol r) l₀) ∧
    PasteField.getNum f (applyPasteCell f (firstCol r) l₀) = some 0 := by
  constructor
  · unfold handlePaste
    rw [if_neg (not_not_intro htext), hidx]
    have := pasteFold_target f start (pasteRows text) 0 ls i r l₀ hrow (by simpa using hl)
    simpa using this
  · match f with
    | .quantity => simp [applyPasteCell, PasteField.getNum, hparse]
    | .frequency => simp [applyPasteCell, PasteField.getNum, hparse]
    | .unit_cost => simp [applyPasteCell, PasteField.getNum, hparse]
    | .description | .category | .unit => simp [PasteField.isNumeric] at hf

/-- C8 counterexample: pasting the rows `abc` (unparseable) over a line whose
quantity is 5 commits 0, instead of leaving the previous value 5 unchanged. -/
theorem paste_invalid_overwrites_value :
    ((handlePaste "a" PasteField.quantity "abc\n"
        [{ id := "a", sectionId := "s", quantity := some 5 }]).headD
          { id := "a", sectionId := "s", quantity := some 5 }).quantity = some 0 ∧
    ({ id := "a", sectionId := "s", quantity := some 5 } : BudgetLine).quantity = some 5 := by
  decide

theorem paste_invalid_commits_zero_witness :
    (PasteField.isNumeric .quantity = true) ∧
    ("abc\n".toList.contains '\n' ∨ "abc\n".toList.contains '\r') ∧
    ([({ id := "a", sectionId := "s", quantity := some 5 } : BudgetLine)].findIdx?
        (fun l => l.id = "a") = some 0) ∧
    ((pasteRows "abc\n")[0]? = some "abc") ∧
    (parseNumericInput (firstCol "abc") = none) ∧
    ([({ id := "a", sectionId := "s", quantity := some 5 } : BudgetLine)][0 + 0]? =
      some { id := "a", sectionId := "s", quantity := some 5 }) ∧
    ((handlePaste "a" PasteField.quantity "abc\n"
        [{ id := "a", sectionId := "s", quantity := some 5 }])[0 + 0]? =
      some (applyPasteCell PasteField.quantity (firstCol "abc")
        { id := "a", sectionId := "s", quantity := some 5 }) ∧
      PasteField.getNum PasteField.quantity (applyPasteCell PasteField.quantity (firstCol "abc")
        { id := "a", sectionId := "s", quantity := some 5 }) = some 0) :=
  ⟨by decide, by decide, by decide, by decide, by decide, by decide,
    paste_invalid_commits_zero _ "a" PasteField.quantity "abc\n" 0 0 "abc" _
      (by decide) (by decide) (by decide) (by decide) (by decide) (by decide)⟩

/-! ### Characterizing the id map and adjacency map of the tree index -/

theorem buildById_go (ls : List BudgetLine) (m : St) (k : String) :
    (ls.foldl (fun m l => fun k => if k = l.id then some l else m k) m) k =
      (ls.reverse.find? (fun l => l.id = k)).or (m k) := by
  induction ls generalizing m with
  | nil => rfl
  | cons l t ih =>
      simp only [List.foldl_cons, List.reverse_cons, List.find?_append]
      rw [ih, Option.or_assoc]
      congr 1
      by_cases hk : k = l.id
      · simp [List.find?_cons, hk]
      · have hk2 : ¬(l.id = k) := fun h => hk h.symm
        simp [List.find?_cons, hk, hk2]

theorem buildById_apply (ls : List BudgetLine) (k : String) :
    buildById ls k = ls.reverse.find? (fun l => l.id = k) := by
  have h := buildById_go ls (fun _ => none) k
  simpa using h

theorem eq_of_id_eq {ls : List BudgetLine} (hids : (lineIds ls).Nodup)
    {a b : BudgetLine} (ha : a ∈ ls) (hb : b ∈ ls) (h : a.id = b.id) : a = b :=
  List.inj_on_of_nodup_map hids ha hb h

theorem buildById_mem {ls : List BudgetLine} (hids : (lineIds ls).Nodup)
    {l : BudgetLine} (hl : l ∈ ls) : buildById ls l.id = some l := by
  rw [buildById_apply]
  match hf : ls.reverse.find? (fun x => x.id = l.id) with
  | some x =>
      have hx : x ∈ ls := List.mem_reverse.mp (List.mem_of_find?_eq_some hf)
      have hpx : x.id = l.id := by simpa using List.find?_some hf
      rw [hf, eq_of_id_eq hids hx hl hpx]
  | none =>
      exact absurd (List.find?_eq_none.mp hf l (List.mem_reverse.mpr hl)) (by simp)

theorem buildById_some {ls : List BudgetLine} {k : String} {x : BudgetLine}
    (h : buildById ls k = some x) : x ∈ ls ∧ x.id = k := by
  rw [buildById_apply] at h
  exact ⟨List.mem_reverse.mp (List.mem_of_find?_eq_some h),
    by simpa using List.find?_some h⟩

theorem buildById_none {ls : List BudgetLine} {k : String} (h : k ∉ lineIds ls) :
    buildById ls k = none := by
  rw [buildById_apply]
  match hf : ls.reverse.find? (fun l => l.id = k) with
  | some y =>
      have hy := List.mem_reverse.mp (List.mem_of_find?_eq_some hf)
      have hyk : y.id = k := by simpa using List.find?_some hf
      exact absurd (hyk ▸ List.mem_map_of_mem (fun l => l.id) hy) h
  | none => rw [hf]

theorem buildById_isSome_iff {ls : List BudgetLine} {k : String} :
    (buildById ls k).isSome ↔ k ∈ lineIds ls := by
  constructor
  · intro h
    match hk : buildById ls k with
    | some x =>
        obtain ⟨hx, hxk⟩ := buildById_some hk
        exact hxk ▸ List.mem_map_of_mem (fun l => l.id) hx
    | none => rw [hk] at h; simp at h
  · intro h
    obtain ⟨l, hl, hlk⟩ := List.mem_map.mp h
    rw [buildById_apply]
    match hf : ls.reverse.find? (fun x => x.id = k) with
    | some y => rw [hf]; rfl
    | none =>
        have := List.find?_eq_none.mp hf l (List.mem_reverse.mpr hl)
        simp [hlk] at this

theorem buildChildren_go (byId : St) (ls : List BudgetLine)
    (m : String → List String) (q : String) :
    (ls.foldl
      (fun m l =>
        match l.parentId with
        | none => m
        | some p =>
            if p = "" then m
            else if (byId p).isSome then fun k => if k = p then m k ++ [l.id] else m k
            else m)
      m) q = m q ++ (ls.filter (childKeep byId q)).map (fun l => l.id) := by
  induction ls generalizing m with
  | nil => simp
  | cons l t ih =>
      simp only [List.foldl_cons]
      match hp : l.parentId with
      | none =>
          rw [ih]
          have : childKeep byId q l = false := by simp [childKeep, hp]
          simp [List.filter_cons, this]
      | some p =>
          dsimp only
          by_cases hpe : p = ""
          · rw [if_pos hpe, ih]
            have : childKeep byId q l = false := by simp [childKeep, hp, hpe]
            simp [List.filter_cons, this]
          · rw [if_neg hpe]
            by_cases hs : (byId p).isSome
            · rw [if_pos hs, ih]
              by_cases hq : q = p
              · subst hq
                have : childKeep byId q l = true := by simp [childKeep, hp, hpe, hs]
                simp [List.filter_cons, this, List.append_assoc]
              · have : childKeep byId q l = false := by
                  simp [childKeep, hp]
                  intro hpq
                  exact absurd hpq.symm hq
                simp [List.filter_cons, this, hq]
            · rw [if_neg hs, ih]
              have : childKeep byId q l = false := by simp [childKeep, hp, hs]
              simp [List.filter_cons, this]

theorem lineChildren_apply (ls : List BudgetLine) (q : String) :
    lineChildren ls q = (ls.filter (childKeep (buildById ls) q)).map (fun l => l.id) := by
  have h := buildChildren_go (buildById ls) ls (fun _ => []) q
  simpa using h

theorem mem_lineChildren_iff {ls : List BudgetLine} {c q : String} :
    c ∈ lineChildren ls q ↔
      ∃ l ∈ ls, l.id = c ∧ l.parentId = some q ∧ q ≠ "" ∧ (buildById ls q).isSome := by
  rw [lineChildren_apply]
  simp only [List.mem_map, List.mem_filter]
  constructor
  · rintro ⟨l, ⟨hl, hkeep⟩, hid⟩
    refine ⟨l, hl, hid, ?_⟩
    match hp : l.parentId with
    | none => rw [childKeep, hp] at hkeep; simp at hkeep
    | some p =>
        rw [childKeep, hp] at hkeep
        simp only [Bool.and_eq_true, Bool.not_eq_eq_eq_not, Bool.not_true, decide_eq_true_eq,
          decide_eq_false_iff_not] at hkeep
        obtain ⟨⟨hpq, hpe⟩, hsome⟩ := hkeep
        subst hpq
        exact ⟨rfl, hpe, hsome⟩
  · rintro ⟨l, hl, hid, hp, hqe, hsome⟩
    refine ⟨l, ⟨hl, ?_⟩, hid⟩
    rw [childKeep, hp]
    simp [hqe, hsome]

theorem lineChildren_nodup {ls : List BudgetLine} (hids : (lineIds ls).Nodup) (q : String) :
    (lineChildren ls q).Nodup := by
  rw [lineChildren_apply]
  exact List.Nodup.sublist (List.Sublist.map _ (List.filter_sublist ls)) hids

theorem lineChildren_parent_unique {ls : List BudgetLine} (hids : (lineIds ls).Nodup)
    {c q q' : String} (h : c ∈ lineChildren ls q) (h' : c ∈ lineChildren ls q') : q = q' := by
  obtain ⟨l, hl, hid, hp, _, _⟩ := mem_lineChildren_iff.mp h
  obtain ⟨l', hl', hid', hp', _, _⟩ := mem_lineChildren_iff.mp h'
  have : l = l' := eq_of_id_eq hids hl hl' (hid.trans hid'.symm)
  have := this ▸ hp
  rw [hp'] at this
  exact (Option.some.injEq _ _ ▸ this).symm ▸ rfl

theorem lineChildren_mem_truthy {ls : List BudgetLine} {c q : String}
    (h : c ∈ lineChildren ls q) : ∃ l ∈ ls, l.id = c ∧ truthyStr l.parentId := by
  obtain ⟨l, hl, hid, hp, hqe, _⟩ := mem_lineChildren_iff.mp h
  exact ⟨l, hl, hid, by simp [truthyStr, hp, hqe]⟩

theorem lineChildren_sub_ids {ls : List BudgetLine} {c q : String}
    (h : c ∈ lineChildren ls q) : c ∈ lineIds ls := by
  obtain ⟨l, hl, hid, _, _, _⟩ := mem_lineChildren_iff.mp h
  exact hid ▸ List.mem_map_of_mem (fun l => l.id) hl

theorem lineChildren_key_ids {ls : List BudgetLine} {c q : String}
    (h : c ∈ lineChildren ls q) : q ∈ lineIds ls := by
  obtain ⟨_, _, _, _, _, hsome⟩ := mem_lineChildren_iff.mp h
  exact buildById_isSome_iff.mp hsome

/-! ### Reachability in a graph with unique parents -/

/-- In a step relation where every node has at most one predecessor, two
nodes reaching a common node are comparable. -/
theorem reflTransGen_diamond {R : String → String → Prop}
    (huniq : ∀ a b c, R a c → R b c → a = b) {j b : String}
    (hb : Relation.ReflTransGen R b j) :
    ∀ a, Relation.ReflTransGen R a j →
      Relation.ReflTransGen R a b ∨ Relation.ReflTransGen R b a := by
  induction hb using Relation.ReflTransGen.head_induction_on with
  | refl => exact fun a ha => Or.inl ha
  | head hbc hcj ih =>
      rename_i b' c' 
      intro a ha
      rcases ih a ha with hac | hca
      · rcases Relation.ReflTransGen.cases_tail hac with heq | ⟨q, haq, hqc⟩
        · exact Or.inr (heq ▸ Relation.ReflTransGen.single hbc)
        · rw [huniq q b' c' hqc hbc] at haq
          exact Or.inl haq
      · exact Or.inr (Relation.ReflTransGen.head hbc hca)

/-- A chain member is an id of the list. -/
theorem AncChain.mem_ids {ls : List BudgetLine} :
    ∀ {A : List String} {lid : String}, AncChain ls A lid →
      lid ∈ lineIds ls ∧ ∀ q ∈ A, q ∈ lineIds ls := by
  intro A
  induction A with
  | nil =>
      intro lid h
      obtain ⟨r, hr, hrl, _⟩ := h
      exact ⟨hrl ▸ List.mem_map_of_mem (fun l => l.id) hr, by simp⟩
  | cons q A ih =>
      intro lid h
      obtain ⟨hc, hA⟩ := h
      obtain ⟨hq, hAq⟩ := ih hA
      refine ⟨lineChildren_sub_ids hc, ?_⟩
      intro x hx
      rcases List.mem_cons.mp hx with hxq | hxA
      · exact hxq ▸ hq
      · exact hAq x hxA

/-- Chains to a given start are unique. -/
theorem AncChain.unique {ls : List BudgetLine} (hids : (lineIds ls).Nodup) :
    ∀ {A B : List String} {lid : String}, AncChain ls A lid → AncChain ls B lid → A = B := by
  intro A
  induction A with
  | nil =>
      intro B lid hA hB
      match B with
      | [] => rfl
      | q :: B' =>
          obtain ⟨r, hr, hrl, hroot⟩ := hA
          obtain ⟨hc, _⟩ := hB
          obtain ⟨l, hl, hlid, htruthy⟩ := lineChildren_mem_truthy hc
          have : l = r := eq_of_id_eq hids hl hr (hlid.trans hrl.symm)
          rw [this] at htruthy
          exact absurd htruthy hroot
  | cons q A ih =>
      intro B lid hA hB
      match B with
      | [] =>
          obtain ⟨r, hr, hrl, hroot⟩ := hB
          obtain ⟨hc, _⟩ := hA
          obtain ⟨l, hl, hlid, htruthy⟩ := lineChildren_mem_truthy hc
          have : l = r := eq_of_id_eq hids hl hr (hlid.trans hrl.symm)
          rw [this] at htruthy
          exact absurd htruthy hroot
      | q' :: B' =>
          obtain ⟨hc, hA'⟩ := hA
          obtain ⟨hc', hB'⟩ := hB
          have hq : q = q' := lineChildren_parent_unique hids hc hc'
          subst hq
          rw [ih hA' hB']

/-- Dropping the part of a chain below an occurrence of `y` leaves a chain
for `y`. -/
theorem AncChain.suffix {ls : List BudgetLine} :
    ∀ {B : List String} {y : String} {C : List String} {lid : String},
      AncChain ls (B ++ y :: C) lid → AncChain ls C y := by
  intro B
  induction B with
  | nil => intro y C lid h; exact h.2
  | cons b B ih =>
      intro y C lid h
      exact ih h.2

/-- A chain, together with its start, never repeats an id. -/
theorem AncChain.nodup {ls : List BudgetLine} (hids : (lineIds ls).Nodup) :
    ∀ {A : List String} {lid : String}, AncChain ls A lid → (lid :: A).Nodup := by
  intro A
  induction A with
  | nil => intro lid _; simp
  | cons q A ih =>
      intro lid h
      have htail : (q :: A).Nodup := ih h.2
      refine List.nodup_cons.mpr ⟨?_, htail⟩
      intro hmem
      obtain ⟨B, C, hBC⟩ := List.append_of_mem hmem
      have hC : AncChain ls C lid := AncChain.suffix (hBC ▸ h)
      have heq : q :: A = C := AncChain.unique hids h hC
      have hlen : (q :: A).length = C.length := by rw [heq]
      rw [hBC] at hlen
      simp at hlen
      omega

/-- Extending a chain along a downward reachability path. -/
theorem AncChain.extend {ls : List BudgetLine} {x y : String}
    (hxy : cmReach (lineChildren ls) x y) :
    ∀ {B : List String}, AncChain ls B x →
      ∃ B', AncChain ls B' y ∧ B.length ≤ B'.length := by
  induction hxy using Relation.ReflTransGen.head_induction_on with
  | refl => exact fun {B} hB => ⟨B, hB, le_refl _⟩
  | head hstep _ ih =>
      rename_i a c _
      intro B hB
      have hc : AncChain ls (a :: B) c := ⟨hstep, hB⟩
      obtain ⟨B', hB', hlen⟩ := ih hc
      exact ⟨B', hB', le_trans (by simp) hlen⟩

/-- No child of a chained node can reach back to it. -/
theorem AncChain.no_reach_back {ls : List BudgetLine} (hids : (lineIds ls).Nodup)
    {A : List String} {lid c : String} (hA : AncChain ls A lid)
    (hc : c ∈ lineChildren ls lid) : ¬cmReach (lineChildren ls) c lid := by
  intro hreach
  have hcchain : AncChain ls (lid :: A) c := ⟨hc, hA⟩
  obtain ⟨B', hB', hlen⟩ := AncChain.extend hreach hcchain
  have huniq : A = B' := AncChain.unique hids hA hB'
  rw [← huniq] at hlen
  simp at hlen

/-- A reachable node cannot be a child of a strictly deeper node: the walk
never loops back onto `lid`. -/
theorem AncChain.no_self_loop {ls : List BudgetLine} (hids : (lineIds ls).Nodup)
    {A : List String} {lid j : String} (hA : AncChain ls A lid)
    (hreach : cmReach (lineChildren ls) lid j) (hmem : lid ∈ lineChildren ls j) : False := by
  obtain ⟨B', hB', hlen⟩ := AncChain.extend hreach hA
  have hchain : AncChain ls (j :: B') lid := ⟨hmem, hB'⟩
  have huniq : A = j :: B' := AncChain.unique hids hA hchain
  rw [huniq] at hlen
  simp at hlen

/-- Subtrees of distinct siblings are disjoint. -/
theorem sibling_reach_disjoint {ls : List BudgetLine} (hids : (lineIds ls).Nodup)
    {A : List String} {lid : String} (hA : AncChain ls A lid)
    {c c' j : String} (hc : c ∈ lineChildren ls lid) (hc' : c' ∈ lineChildren ls lid)
    (hne : c ≠ c') (hj : cmReach (lineChildren ls) c j)
    (hj' : cmReach (lineChildren ls) c' j) : False := by
  have huniq : ∀ a b x, cmStep (lineChildren ls) a x → cmStep (lineChildren ls) b x → a = b :=
    fun a b x ha hb => lineChildren_parent_unique hids ha hb
  rcases reflTransGen_diamond huniq hj' c hj with hcc' | hc'c
  · rcases Relation.ReflTransGen.cases_tail hcc' with heq | ⟨q, hcq, hqc'⟩
    · exact hne heq.symm
    · have hq : q = lid := lineChildren_parent_unique hids hqc' hc'
      exact AncChain.no_reach_back hids hA hc (hq ▸ hcq)
  · rcases Relation.ReflTransGen.cases_tail hc'c with heq | ⟨q, hcq, hqc⟩
    · exact hne heq
    · have hq : q = lid := lineChildren_parent_unique hids hqc hc
      exact AncChain.no_reach_back hids hA hc' (hq ▸ hcq)

/-- The call stack of the walk is bounded by the number of lines. -/
theorem AncChain.length_le {ls : List BudgetLine} (hids : (lineIds ls).Nodup)
    {A : List String} {lid : String} (hA : AncChain ls A lid) :
    A.length + 1 ≤ ls.length := by
  have hnd : (lid :: A).Nodup := AncChain.nodup hids hA
  have hsub : ∀ x ∈ lid :: A, x ∈ lineIds ls := by
    intro x hx
    obtain ⟨hlid, hall⟩ := AncChain.mem_ids hA
    rcases List.mem_cons.mp hx with h | h
    · exact h ▸ hlid
    · exact hall x h
  have h1 : (lid :: A).toFinset.card = (lid :: A).length := List.toFinset_card_of_nodup hnd
  have h2 : (lid :: A).toFinset ⊆ (lineIds ls).toFinset := by
    intro x hx
    exact List.mem_toFinset.mpr (hsub x (List.mem_toFinset.mp hx))
  have h3 := Finset.card_le_card h2
  have h4 : (lineIds ls).toFinset.card ≤ (lineIds ls).length := (lineIds ls).toFinset_card_le
  have h5 : (lineIds ls).length = ls.length := List.length_map ls (fun l => l.id)
  simp only [h1] at h3
  simp only [List.length_cons] at h3 ⊢
  omega

/-- The recalculation walk never touches the entry of an unreachable id. -/
theorem computeTotal_frame (cm : String → List String) :
    ∀ (fuel : Nat) (lid : String) (st : St) (j : String), ¬cmReach cm lid j →
      (computeTotal cm fuel lid st).2 j = st j := by
  intro fuel
  induction fuel with
  | zero => intro lid st j _; rfl
  | succ f ih =>
      intro lid st j hj
      have hjl : j ≠ lid := fun h => hj (h ▸ Relation.ReflTransGen.refl)
      show (computeTotal cm (f + 1) lid st).2 j = st j
      rw [computeTotal]
      match hline : st lid with
      | none => rfl
      | some line =>
          dsimp only
          by_cases hcids : cm lid = []
          · rw [if_pos hcids]
            dsimp only
            rw [if_neg hjl]
          · rw [if_neg hcids]
            dsimp only
            rw [if_neg hjl]
            have inner : ∀ (cs : List String), (∀ c ∈ cs, c ∈ cm lid) →
                ∀ (acc : ℚ) (st₁ : St), st₁ j = st j →
                (cs.foldl (fun acc cid =>
                    ((acc.1 + (computeTotal cm f cid acc.2).1 : ℚ),
                      (computeTotal cm f cid acc.2).2)) (acc, st₁)).2 j = st j := by
              intro cs
              induction cs with
              | nil => intro _ acc st₁ h; exact h
              | cons c cs ihc =>
                  intro hsub acc st₁ h
                  simp only [List.foldl_cons]
                  apply ihc (fun x hx => hsub x (List.mem_cons_of_mem c hx))
                  rw [ih c st₁ j ?hcj]
                  · exact h
                  · intro hcj
                    exact hj (Relation.ReflTransGen.head (hsub c (List.mem_cons_self c cs)) hcj)
            exact inner (cm lid) (fun c h => h) 0 st (rfl)

/-- Two states assigning the same totals to a node's children yield the same
recalculated entry. -/
theorem doneEntry_congr {cm : String → List String} {st st' : St} {lj : BudgetLine}
    (h : ∀ c ∈ cm lj.id, entryTotal st c = entryTotal st' c) :
    doneEntry cm st lj = doneEntry cm st' lj := by
  unfold doneEntry
  by_cases hcids : cm lj.id = []
  · simp [hcids]
  · simp only [if_neg hcids]
    have : (cm lj.id).foldl (fun a c => a + entryTotal st c) 0 =
        (cm lj.id).foldl (fun a c => a + entryTotal st' c) 0 := by
      have hgen : ∀ (L : List String), (∀ c ∈ L, entryTotal st c = entryTotal st' c) →
          ∀ (x : ℚ), L.foldl (fun a c => a + entryTotal st c) x =
            L.foldl (fun a c => a + entryTotal st' c) x := by
        intro L
        induction L with
        | nil => intro _ x; rfl
        | cons c L ihL =>
            intro hL x
            simp only [List.foldl_cons]
            rw [hL c (List.mem_cons_self c L)]
            exact ihL (fun y hy => hL y (List.mem_cons_of_mem c hy)) _
      exact hgen (cm lj.id) h 0
    rw [this]

/-- A processed node stays processed in any later state that preserves its
entry and its children's entries. -/
theorem NodeDone.persist {ls : List BudgetLine} {st st' : St} {j : String}
    (h : NodeDone ls st j) (hj : st' j = st j)
    (hch : ∀ c ∈ lineChildren ls j, st' c = st c) : NodeDone ls st' j := by
  obtain ⟨lj, hlj, hljid, hentry⟩ := h
  refine ⟨lj, hlj, hljid, ?_⟩
  rw [hj, hentry]
  have : doneEntry (lineChildren ls) st lj = doneEntry (lineChildren ls) st' lj := by
    apply doneEntry_congr
    intro c hc
    rw [entryTotal, entryTotal, hch c (hljid ▸ hc)]
  rw [this]

/-- Congruence for the child-total folds of the recalculated entries. -/
theorem foldl_entryTotal_congr {st st' : St} :
    ∀ (L : List String), (∀ c ∈ L, entryTotal st c = entryTotal st' c) →
      ∀ (x : ℚ), L.foldl (fun a c => a + entryTotal st c) x =
        L.foldl (fun a c => a + entryTotal st' c) x := by
  intro L
  induction L with
  | nil => intro _ x; rfl
  | cons c L ihL =>
      intro hL x
      simp only [List.foldl_cons]
      rw [hL c (List.mem_cons_self c L)]
      exact ihL (fun y hy => hL y (List.mem_cons_of_mem c hy)) _

/-- The main correctness lemma of one recalculation visit: invoked on `lid`
with a valid call stack, enough fuel and a state that is still pristine on
the subtree of `lid`, the walk fully processes every reachable id, and its
return value is the total it stored for `lid`. -/
theorem computeTotal_visit {ls : List BudgetLine} (hids : (lineIds ls).Nodup) :
    ∀ (fuel : Nat) (A : List String) (lid : String) (st : St),
      AncChain ls A lid →
      ls.length + 1 ≤ fuel + A.length →
      (∀ j, cmReach (lineChildren ls) lid j → st j = buildById ls j) →
      (∀ j, cmReach (lineChildren ls) lid j →
        NodeDone ls (computeTotal (lineChildren ls) fuel lid st).2 j) ∧
      (computeTotal (lineChildren ls) fuel lid st).1 =
        entryTotal (computeTotal (lineChildren ls) fuel lid st).2 lid := by
  intro fuel
  induction fuel with
  | zero =>
      intro A lid st hA hfuel _
      exfalso
      have := AncChain.length_le hids hA
      omega
  | succ f ih =>
      intro A lid st hA hfuel hst
      have hlid_ids : lid ∈ lineIds ls := (AncChain.mem_ids hA).1
      obtain ⟨l₀, hl₀, hl₀id⟩ := List.mem_map.mp hlid_ids
      have hline : st lid = some l₀ := by
        rw [hst lid Relation.ReflTransGen.refl, ← hl₀id, buildById_mem hids hl₀]
      by_cases hcids : lineChildren ls lid = []
      · -- leaf node
        have hres : computeTotal (lineChildren ls) (f + 1) lid st =
            (sanitizeNum l₀.quantity * sanitizeNum l₀.frequency * sanitizeNum l₀.unit_cost,
             fun k => if k = lid then
                 some { l₀ with quantity := some (sanitizeNum l₀.quantity),
                                frequency := some (sanitizeNum l₀.frequency),
                                unit_cost := some (sanitizeNum l₀.unit_cost),
                                total := some (sanitizeNum l₀.quantity *
                                  sanitizeNum l₀.frequency * sanitizeNum l₀.unit_cost) }
               else st k) := by
          rw [computeTotal, hline]
          dsimp only
          rw [if_pos hcids]
        rw [hres]
        constructor
        · intro j hj
          have hjl : j = lid := by
            rcases Relation.ReflTransGen.cases_head hj with h | ⟨c, hc, _⟩
            · exact h.symm
            · rw [cmStep, hcids] at hc
              simp at hc
          subst hjl
          refine ⟨l₀, hl₀, hl₀id, ?_⟩
          simp only [eq_self_iff_true, if_true]
          rw [doneEntry, hl₀id, if_pos hcids]
        · simp [entryTotal]
      · -- parent node
        have hnotself : lid ∉ lineChildren ls lid := fun h =>
          AncChain.no_reach_back hids hA h Relation.ReflTransGen.refl
        -- the fold over the children
        have fold_spec : ∀ (cs : List String), cs.Sublist (lineChildren ls lid) →
            ∀ (acc : ℚ) (st₁ : St),
            (∀ j, (∃ c ∈ cs, cmReach (lineChildren ls) c j) → st₁ j = buildById ls j) →
            (∀ j, ¬(∃ c ∈ cs, cmReach (lineChildren ls) c j) →
              (cs.foldl (fun acc cid =>
                ((acc.1 + (computeTotal (lineChildren ls) f cid acc.2).1 : ℚ),
                  (computeTotal (lineChildren ls) f cid acc.2).2)) (acc, st₁)).2 j = st₁ j) ∧
            (∀ j, (∃ c ∈ cs, cmReach (lineChildren ls) c j) →
              NodeDone ls (cs.foldl (fun acc cid =>
                ((acc.1 + (computeTotal (lineChildren ls) f cid acc.2).1 : ℚ),
                  (computeTotal (lineChildren ls) f cid acc.2).2)) (acc, st₁)).2 j) ∧
            (cs.foldl (fun acc cid =>
                ((acc.1 + (computeTotal (lineChildren ls) f cid acc.2).1 : ℚ),
                  (computeTotal (lineChildren ls) f cid acc.2).2)) (acc, st₁)).1 =
              cs.foldl (fun a c => a + entryTotal (cs.foldl (fun acc cid =>
                ((acc.1 + (computeTotal (lineChildren ls) f cid acc.2).1 : ℚ),
                  (computeTotal (lineChildren ls) f cid acc.2).2)) (acc, st₁)).2 c) acc := by
          intro cs
          induction cs with
          | nil =>
              intro _ acc st₁ _
              exact ⟨fun j _ => rfl, fun j hj => absurd hj (by simp), rfl⟩
          | cons c cs ihc =>
              intro hsub acc st₁ hpre
              have hsub' : cs.Sublist (lineChildren ls lid) := List.sublist_of_cons_sublist hsub
              have hcmem : c ∈ lineChildren ls lid := hsub.subset (List.mem_cons_self c cs)
              have hnd : (c :: cs).Nodup := List.Nodup.sublist hsub (lineChildren_nodup hids lid)
              have hcnotin : c ∉ cs := (List.nodup_cons.mp hnd).1
              have hAc : AncChain ls (lid :: A) c := ⟨hcmem, hA⟩
              have hfuel' : ls.length + 1 ≤ f + (lid :: A).length := by
                simp only [List.length_cons]
                omega
              have pre_c : ∀ j, cmReach (lineChildren ls) c j → st₁ j = buildById ls j :=
                fun j hj => hpre j ⟨c, List.mem_cons_self c cs, hj⟩
              obtain ⟨done_c, ret_c⟩ := ih (lid :: A) c st₁ hAc hfuel' pre_c
              have frame_c : ∀ j, ¬cmReach (lineChildren ls) c j →
                  (computeTotal (lineChildren ls) f c st₁).2 j = st₁ j :=
                fun j h => computeTotal_frame (lineChildren ls) f c st₁ j h
              have hdisj : ∀ c' ∈ cs, ∀ j, cmReach (lineChildren ls) c' j →
                  ¬cmReach (lineChildren ls) c j := by
                intro c' hc' j hj' hj
                exact sibling_reach_disjoint hids hA hcmem (hsub'.subset hc')
                  (fun he => hcnotin (he ▸ hc')) hj hj'
              have pre' : ∀ j, (∃ c' ∈ cs, cmReach (lineChildren ls) c' j) →
                  (computeTotal (lineChildren ls) f c st₁).2 j = buildById ls j := by
                rintro j ⟨c', hc', hj'⟩
                rw [frame_c j (hdisj c' hc' j hj')]
                exact hpre j ⟨c', List.mem_cons_of_mem c hc', hj'⟩
              obtain ⟨fa', fb', fc'⟩ := ihc hsub'
                (acc + (computeTotal (lineChildren ls) f c st₁).1)
                (computeTotal (lineChildren ls) f c st₁).2 pre'
              simp only [List.foldl_cons]
              refine ⟨?_, ?_, ?_⟩
              · intro j hnot
                have hnc : ¬cmReach (lineChildren ls) c j :=
                  fun h => hnot ⟨c, List.mem_cons_self c cs, h⟩
                have hncs : ¬(∃ c' ∈ cs, cmReach (lineChildren ls) c' j) :=
                  fun ⟨c', hc', h⟩ => hnot ⟨c', List.mem_cons_of_mem c hc', h⟩
                rw [fa' j hncs, frame_c j hnc]
              · rintro j ⟨c', hc', hj'⟩
                rcases List.mem_cons.mp hc' with hcc | hcs
                · subst hcc
                  have hdone := done_c j hj'
                  have hnotcs : ¬(∃ c'' ∈ cs, cmReach (lineChildren ls) c'' j) :=
                    fun ⟨c'', hc'', hj''⟩ => hdisj c'' hc'' j hj'' hj'
                  refine NodeDone.persist hdone (fa' j hnotcs) ?_
                  intro cj hcj
                  apply fa'
                  rintro ⟨c'', hc'', hj''⟩
                  exact hdisj c'' hc'' cj hj''
                    (Relation.ReflTransGen.tail hj' hcj)
                · exact fb' j ⟨c', hcs, hj'⟩
              · have hRc : (cs.foldl (fun acc cid =>
                    ((acc.1 + (computeTotal (lineChildren ls) f cid acc.2).1 : ℚ),
                      (computeTotal (lineChildren ls) f cid acc.2).2))
                    (acc + (computeTotal (lineChildren ls) f c st₁).1,
                      (computeTotal (lineChildren ls) f c st₁).2)).2 c =
                    (computeTotal (lineChildren ls) f c st₁).2 c := by
                  apply fa'
                  rintro ⟨c'', hc'', hj''⟩
                  exact hdisj c'' hc'' c hj'' Relation.ReflTransGen.refl
                have hentry : entryTotal (cs.foldl (fun acc cid =>
                    ((acc.1 + (computeTotal (lineChildren ls) f cid acc.2).1 : ℚ),
                      (computeTotal (lineChildren ls) f cid acc.2).2))
                    (acc + (computeTotal (lineChildren ls) f c st₁).1,
                      (computeTotal (lineChildren ls) f c st₁).2)).2 c =
                    (computeTotal (lineChildren ls) f c st₁).1 := by
                  rw [entryTotal, hRc]
                  exact ret_c.symm
                rw [hentry]
                exact fc'
        -- apply the fold lemma to the whole child list
        obtain ⟨fa, fb, fc⟩ := fold_spec (lineChildren ls lid) (List.Sublist.refl _) 0 st
          (by
            rintro j ⟨c, hc, hj⟩
            exact hst j (Relation.ReflTransGen.head hc hj))
        have hres : computeTotal (lineChildren ls) (f + 1) lid st =
            (sanitizeNum l₀.quantity * sanitizeNum l₀.frequency *
              ((lineChildren ls lid).foldl (fun acc cid =>
                ((acc.1 + (computeTotal (lineChildren ls) f cid acc.2).1 : ℚ),
                  (computeTotal (lineChildren ls) f cid acc.2).2)) (0, st)).1,
             fun k => if k = lid then
                 some { l₀ with quantity := some (sanitizeNum l₀.quantity),
                                frequency := some (sanitizeNum l₀.frequency),
                                unit_cost := some ((lineChildren ls lid).foldl (fun acc cid =>
                                  ((acc.1 + (computeTotal (lineChildren ls) f cid acc.2).1 : ℚ),
                                    (computeTotal (lineChildren ls) f cid acc.2).2)) (0, st)).1,
                                total := some (sanitizeNum l₀.quantity *
                                  sanitizeNum l₀.frequency *
                                  ((lineChildren ls lid).foldl (fun acc cid =>
                                    ((acc.1 + (computeTotal (lineChildren ls) f cid acc.2).1 : ℚ),
                                      (computeTotal (lineChildren ls) f cid acc.2).2)) (0, st)).1) }
               else ((lineChildren ls lid).foldl (fun acc cid =>
                 ((acc.1 + (computeTotal (lineChildren ls) f cid acc.2).1 : ℚ),
                   (computeTotal (lineChildren ls) f cid acc.2).2)) (0, st)).2 k) := by
          rw [computeTotal, hline]
          dsimp only
          rw [if_neg hcids]
        rw [hres]
        have hchildstf : ∀ c ∈ lineChildren ls lid,
            (fun k => if k = lid then
                 some { l₀ with quantity := some (sanitizeNum l₀.quantity),
                                frequency := some (sanitizeNum l₀.frequency),
                                unit_cost := some ((lineChildren ls lid).foldl (fun acc cid =>
                                  ((acc.1 + (computeTotal (lineChildren ls) f cid acc.2).1 : ℚ),
                                    (computeTotal (lineChildren ls) f cid acc.2).2)) (0, st)).1,
                                total := some (sanitizeNum l₀.quantity *
                                  sanitizeNum l₀.frequency *
                                  ((lineChildren ls lid).foldl (fun acc cid =>
                                    ((acc.1 + (computeTotal (lineChildren ls) f cid acc.2).1 : ℚ),
                                      (computeTotal (lineChildren ls) f cid acc.2).2)) (0, st)).1) }
               else ((lineChildren ls lid).foldl (fun acc cid =>
                 ((acc.1 + (computeTotal (lineChildren ls) f cid acc.2).1 : ℚ),
                   (computeTotal (lineChildren ls) f cid acc.2).2)) (0, st)).2 k) c =
            ((lineChildren ls lid).foldl (fun acc cid =>
              ((acc.1 + (computeTotal (lineChildren ls) f cid acc.2).1 : ℚ),
                (computeTotal (lineChildren ls) f cid acc.2).2)) (0, st)).2 c := by
          intro c hc
          have : c ≠ lid := fun h => hnotself (h ▸ hc)
          simp only [if_neg this]
        constructor
        · intro j hj
          rcases Relation.ReflTransGen.cases_head hj with hjl | ⟨c, hc, hcj⟩
          · -- j = lid: the freshly written parent entry
            subst hjl
            refine ⟨l₀, hl₀, hl₀id, ?_⟩
            simp only [eq_self_iff_true, if_true]
            rw [doneEntry, hl₀id, if_neg hcids]
            have hcongrSTF : ∀ c ∈ lineChildren ls lid, entryTotal
                (fun k => if k = lid then
                   some { l₀ with id := lid,
                                  quantity := some (sanitizeNum l₀.quantity),
                                  frequency := some (sanitizeNum l₀.frequency),
                                  unit_cost := some ((lineChildren ls lid).foldl (fun acc cid =>
                                    ((acc.1 + (computeTotal (lineChildren ls) f cid acc.2).1 : ℚ),
                                      (computeTotal (lineChildren ls) f cid acc.2).2)) (0, st)).1,
                                  total := some (sanitizeNum l₀.quantity *
                                    sanitizeNum l₀.frequency *
                                    ((lineChildren ls lid).foldl (fun acc cid =>
                                      ((acc.1 + (computeTotal (lineChildren ls) f cid acc.2).1 : ℚ),
                                        (computeTotal (lineChildren ls) f cid acc.2).2)) (0, st)).1) }
                 else ((lineChildren ls lid).foldl (fun acc cid =>
                   ((acc.1 + (computeTotal (lineChildren ls) f cid acc.2).1 : ℚ),
                     (computeTotal (lineChildren ls) f cid acc.2).2)) (0, st)).2 k) c =
                entryTotal ((lineChildren ls lid).foldl (fun acc cid =>
                  ((acc.1 + (computeTotal (lineChildren ls) f cid acc.2).1 : ℚ),
                    (computeTotal (lineChildren ls) f cid acc.2).2)) (0, st)).2 c := by
              intro c hc
              have hne : c ≠ lid := fun h => hnotself (h ▸ hc)
              unfold entryTotal
              simp only [if_neg hne]
            rw [foldl_entryTotal_congr (lineChildren ls lid) hcongrSTF 0, ← fc]
          · -- j strictly below lid
            have hjne : j ≠ lid := by
              intro h
              subst h
              exact AncChain.no_reach_back hids hA hc hcj
            have hdone := fb j ⟨c, hc, hcj⟩
            refine NodeDone.persist hdone (by simp only [if_neg hjne]) ?_
            intro cj hcjmem
            have hcjne : cj ≠ lid := by
              intro h
              subst h
              exact AncChain.no_self_loop hids hA hj hcjmem
            simp only [if_neg hcjne]
        · simp [entryTotal]

/-- General congruence for additive folds. -/
theorem foldl_add_congr {α : Type} (L : List α) {g1 g2 : α → ℚ}
    (h : ∀ c ∈ L, g1 c = g2 c) :
    ∀ (x : ℚ), L.foldl (fun a c => a + g1 c) x = L.foldl (fun a c => a + g2 c) x := by
  induction L with
  | nil => intro x; rfl
  | cons c L ihL =>
      intro x
      simp only [List.foldl_cons]
      rw [h c (List.mem_cons_self c L)]
      exact ihL (fun y hy => h y (List.mem_cons_of_mem c hy)) _

/-- No root line is strictly reachable from another root. -/
theorem root_reach_root {ls : List BudgetLine} (hids : (lineIds ls).Nodup)
    {r x : BudgetLine} (hr : r ∈ ls) (hx : x ∈ ls) (hxroot : ¬truthyStr x.parentId)
    (hreach : cmReach (lineChildren ls) r.id x.id) : r.id = x.id := by
  rcases Relation.ReflTransGen.cases_tail hreach with heq | ⟨q, _, hqx⟩
  · exact heq.symm
  · obtain ⟨l, hl, hlid, htruthy⟩ := lineChildren_mem_truthy hqx
    have : l = x := eq_of_id_eq hids hl hx hlid
    rw [this] at htruthy
    exact absurd htruthy hxroot

/-- Running the root loop over the remaining lines `Q` extends the processed
region and leaves everything else untouched. -/
theorem recalc_roots_fold {ls : List BudgetLine} (hids : (lineIds ls).Nodup) :
    ∀ (Q P : List BudgetLine), ls = P ++ Q → ∀ (st : St),
      (∀ j, (∃ r ∈ P, ¬truthyStr r.parentId ∧ cmReach (lineChildren ls) r.id j) →
        NodeDone ls st j) →
      (∀ j, ¬(∃ r ∈ P, ¬truthyStr r.parentId ∧ cmReach (lineChildren ls) r.id j) →
        st j = buildById ls j) →
      (∀ j, (∃ r ∈ P ++ Q, ¬truthyStr r.parentId ∧ cmReach (lineChildren ls) r.id j) →
        NodeDone ls (Q.foldl (fun st l => if truthyStr l.parentId then st
          else (computeTotal (buildChildren (buildById ls) ls)
            (ls.length + 1) l.id st).2) st) j) ∧
      (∀ j, ¬(∃ r ∈ P ++ Q, ¬truthyStr r.parentId ∧ cmReach (lineChildren ls) r.id j) →
        (Q.foldl (fun st l => if truthyStr l.parentId then st
          else (computeTotal (buildChildren (buildById ls) ls)
            (ls.length + 1) l.id st).2) st) j = buildById ls j) := by
  intro Q
  induction Q with
  | nil =>
      intro P hPQ st hdone hclean
      constructor
      · intro j hj
        simp only [List.append_nil] at hj
        exact hdone j hj
      · intro j hj
        simp only [List.append_nil] at hj
        exact hclean j hj
  | cons r Q ihQ =>
      intro P hPQ st hdone hclean
      have hshift : ls = (P ++ [r]) ++ Q := by rw [hPQ, List.append_assoc]; rfl
      have hmemiff : ∀ j, (∃ x ∈ P ++ r :: Q, ¬truthyStr x.parentId ∧
          cmReach (lineChildren ls) x.id j) ↔
          (∃ x ∈ (P ++ [r]) ++ Q, ¬truthyStr x.parentId ∧
            cmReach (lineChildren ls) x.id j) := by
        intro j
        constructor
        · rintro ⟨x, hx, hxr, hxj⟩
          refine ⟨x, ?_, hxr, hxj⟩
          simp only [List.append_assoc, List.singleton_append]
          exact hx
        · rintro ⟨x, hx, hxr, hxj⟩
          refine ⟨x, ?_, hxr, hxj⟩
          simp only [List.append_assoc, List.singleton_append] at hx
          exact hx
      simp only [List.foldl_cons]
      by_cases hroot : truthyStr r.parentId
      · rw [if_pos hroot]
        have hP' : ∀ j, (∃ x ∈ P ++ [r], ¬truthyStr x.parentId ∧
            cmReach (lineChildren ls) x.id j) ↔
            (∃ x ∈ P, ¬truthyStr x.parentId ∧ cmReach (lineChildren ls) x.id j) := by
          intro j
          constructor
          · rintro ⟨x, hx, hxr, hxj⟩
            rcases List.mem_append.mp hx with h | h
            · exact ⟨x, h, hxr, hxj⟩
            · simp only [List.mem_singleton] at h
              rw [h] at hxr
              exact absurd hroot hxr
          · rintro ⟨x, hx, hxr, hxj⟩
            exact ⟨x, List.mem_append_left _ hx, hxr, hxj⟩
        obtain ⟨h1, h2⟩ := ihQ (P ++ [r]) hshift st
          (fun j hj => hdone j ((hP' j).mp hj))
          (fun j hj => hclean j (fun hc => hj ((hP' j).mpr hc)))
        exact ⟨fun j hj => h1 j ((hmemiff j).mp hj),
          fun j hj => h2 j (fun hc => hj ((hmemiff j).mpr hc))⟩
      · rw [if_neg hroot]
        have hrls : r ∈ ls := hPQ ▸ List.mem_append_right P (List.mem_cons_self r Q)
        have hchain : AncChain ls [] r.id := ⟨r, hrls, rfl, hroot⟩
        have hfuel : ls.length + 1 ≤ (ls.length + 1) + ([] : List String).length := by simp
        have hrP : r ∉ P := by
          intro hrP
          have : ¬(lineIds ls).Nodup := by
            rw [hPQ, lineIds, List.map_append]
            intro hnd
            have hdisj := List.disjoint_of_nodup_append hnd
            exact hdisj (List.mem_map_of_mem (fun l => l.id) hrP)
              (by simp)
          exact this hids
        have hpre : ∀ j, cmReach (lineChildren ls) r.id j → st j = buildById ls j := by
          intro j hj
          apply hclean
          rintro ⟨x, hxP, hxroot, hxj⟩
          have hxls : x ∈ ls := hPQ ▸ List.mem_append_left _ hxP
          have huniq : ∀ a b c, cmStep (lineChildren ls) a c →
              cmStep (lineChildren ls) b c → a = b :=
            fun a b c ha hb => lineChildren_parent_unique hids ha hb
          have hcomp := reflTransGen_diamond huniq hxj r.id hj
          have hxr : x = r := by
            rcases hcomp with h | h
            · exact eq_of_id_eq hids hxls hrls (root_reach_root hids hrls hxls hxroot h).symm
            · exact eq_of_id_eq hids hxls hrls (root_reach_root hids hxls hrls hroot h)
          rw [hxr] at hxP
          exact hrP hxP
        obtain ⟨done_r, _⟩ := computeTotal_visit hids (ls.length + 1) [] r.id st hchain hfuel hpre
        have frame_r := computeTotal_frame (buildChildren (buildById ls) ls)
          (ls.length + 1) r.id st
        have hdone₂ : ∀ j, (∃ x ∈ P ++ [r], ¬truthyStr x.parentId ∧
            cmReach (lineChildren ls) x.id j) →
            NodeDone ls ((computeTotal (buildChildren (buildById ls) ls)
              (ls.length + 1) r.id st).2) j := by
          rintro j ⟨x, hx, hxroot, hxj⟩
          rcases List.mem_append.mp hx with hxP | hxr
          · have hnr : ∀ y, cmReach (lineChildren ls) x.id y →
                ¬cmReach (lineChildren ls) r.id y := by
              intro y hxy hry
              have hxls : x ∈ ls := hPQ ▸ List.mem_append_left _ hxP
              have huniq : ∀ a b c, cmStep (lineChildren ls) a c →
                  cmStep (lineChildren ls) b c → a = b :=
                fun a b c ha hb => lineChildren_parent_unique hids ha hb
              have hcomp := reflTransGen_diamond huniq hxy r.id hry
              have hxr : x = r := by
                rcases hcomp with h | h
                · exact eq_of_id_eq hids hxls hrls (root_reach_root hids hrls hxls hxroot h).symm
                · exact eq_of_id_eq hids hxls hrls (root_reach_root hids hxls hrls hroot h)
              rw [hxr] at hxP
              exact hrP hxP
            have hdonej := hdone j ⟨x, hxP, hxroot, hxj⟩
            refine NodeDone.persist hdonej (frame_r j (hnr j hxj)) ?_
            intro cj hcj
            exact frame_r cj (hnr cj (Relation.ReflTransGen.tail hxj hcj))
          · simp only [List.mem_singleton] at hxr
            subst hxr
            exact done_r j hxj
        have hclean₂ : ∀ j, ¬(∃ x ∈ P ++ [r], ¬truthyStr x.parentId ∧
            cmReach (lineChildren ls) x.id j) →
            ((computeTotal (buildChildren (buildById ls) ls)
              (ls.length + 1) r.id st).2) j = buildById ls j := by
          intro j hj
          rw [frame_r j (fun hrj => hj ⟨r, List.mem_append_right P (by simp), hroot, hrj⟩)]
          exact hclean j (fun ⟨x, hxP, hxroot, hxj⟩ => hj ⟨x, List.mem_append_left _ hxP, hxroot, hxj⟩)
        obtain ⟨h1, h2⟩ := ihQ (P ++ [r]) hshift _ hdone₂ hclean₂
        exact ⟨fun j hj => h1 j ((hmemiff j).mp hj),
          fun j hj => h2 j (fun hc => hj ((hmemiff j).mpr hc))⟩

/-- The final map of the root loop: processed on everything reachable from a
root, untouched elsewhere. -/
theorem recalcFinal_spec {ls : List BudgetLine} (hids : (lineIds ls).Nodup) :
    (∀ j, (∃ r ∈ ls, ¬truthyStr r.parentId ∧ cmReach (lineChildren ls) r.id j) →
      NodeDone ls (recalcFinalState ls) j) ∧
    (∀ j, ¬(∃ r ∈ ls, ¬truthyStr r.parentId ∧ cmReach (lineChildren ls) r.id j) →
      recalcFinalState ls j = buildById ls j) := by
  have h := recalc_roots_fold hids ls [] rfl (buildById ls)
    (fun j hj => absurd hj (by simp)) (fun j _ => rfl)
  exact ⟨fun j hj => h.1 j (by simpa using hj), fun j hj => h.2 j (by simpa using hj)⟩

/-- Every line keeps its id, parent reference and section through the final
map (whether or not the walk reached it). -/
theorem recalcFinal_entry {ls : List BudgetLine} (hids : (lineIds ls).Nodup)
    {l : BudgetLine} (hl : l ∈ ls) :
    ∃ x, recalcFinalState ls l.id = some x ∧ x.id = l.id ∧
      x.parentId = l.parentId ∧ x.sectionId = l.sectionId := by
  by_cases htouched : ∃ r ∈ ls, ¬truthyStr r.parentId ∧ cmReach (lineChildren ls) r.id l.id
  · obtain ⟨lj, hlj, hljid, hentry⟩ := (recalcFinal_spec hids).1 l.id htouched
    have hljl : lj = l := eq_of_id_eq hids hlj hl hljid
    subst hljl
    exact ⟨doneEntry (lineChildren ls) (recalcFinalState ls) lj, hentry,
      by simp [doneEntry], by simp [doneEntry], by simp [doneEntry]⟩
  · rw [(recalcFinal_spec hids).2 l.id htouched, buildById_mem hids hl]
    exact ⟨l, rfl, rfl, rfl, rfl⟩

/-- Positional description of the recalculated list. -/
theorem recalcHierarchy_entry (ls : List BudgetLine) (i : Nat) (l₀ : BudgetLine)
    (hi : ls[i]? = some l₀) :
    (recalcHierarchy ls)[i]? = some ((recalcFinalState ls l₀.id).getD l₀) := by
  rw [recalcHierarchy, List.getElem?_map, hi]
  rfl

/-- Under nonempty distinct ids, the engine's adjacency list at a present id
is exactly the claims' child list. -/
theorem lineChildren_eq_childrenOf {ls : List BudgetLine}
    (hne : ∀ l ∈ ls, l.id ≠ "") {q : String} (hq : q ∈ lineIds ls) :
    lineChildren ls q = (childrenOf ls q).map (fun l => l.id) := by
  rw [lineChildren_apply, childrenOf]
  congr 1
  apply List.filter_congr
  intro l hl
  match hp : l.parentId with
  | none => simp [childKeep, hp]
  | some p =>
      by_cases hpq : p = q
      · subst hpq
        have hqne : p ≠ "" := by
          obtain ⟨lq, hlq, hlqid⟩ := List.mem_map.mp hq
          exact hlqid ▸ hne lq hlq
        have hqsome : (buildById ls p).isSome := buildById_isSome_iff.mpr hq
        simp [childKeep, hp, hqne, hqsome]
      · simp [childKeep, hp, hpq, fun h : some p = some q => hpq (Option.some.injEq p q ▸ h)]

/-- C1 (amended): in a list with nonempty distinct ids in which every line's
parent chain resolves up to a root line, recalculation gives every output
line sanitized quantity and frequency, a leaf its sanitized unit cost, a
non-leaf the sum of its children's output totals as unit cost, and every
line `total = quantity * frequency * unit_cost` — recursively through the
whole tree.  (An orphaned line is skipped by the walk, which is why the
parent-chain hypothesis is needed; see the counterexample.) -/
theorem recalc_leaf_parent_totals (ls : List BudgetLine)
    (hids : (lineIds ls).Nodup)
    (hne : ∀ l ∈ ls, l.id ≠ "")
    (hroots : ∀ l ∈ ls, ∃ r ∈ ls, ¬truthyStr r.parentId ∧
      cmReach (lineChildren ls) r.id l.id) :
    ∀ (i : Nat) (l₀ : BudgetLine), ls[i]? = some l₀ →
      ∃ x, (recalcHierarchy ls)[i]? = some x ∧
      x.quantity = some (sanitizeNum l₀.quantity) ∧
      x.frequency = some (sanitizeNum l₀.frequency) ∧
      (childrenOf ls l₀.id = [] → x.unit_cost = some (sanitizeNum l₀.unit_cost)) ∧
      (childrenOf ls l₀.id ≠ [] →
        x.unit_cost = some (totalsSum (childrenOf (recalcHierarchy ls) l₀.id))) ∧
      x.total = jsMul3 x.quantity x.frequency x.unit_cost := by
  intro i l₀ hi
  have hl₀ : l₀ ∈ ls := List.getElem?_mem hi
  obtain ⟨lj, hlj, hljid, hentry⟩ := (recalcFinal_spec hids).1 l₀.id (hroots l₀ hl₀)
  have hljl : lj = l₀ := eq_of_id_eq hids hlj hl₀ hljid
  subst hljl
  have hout : (recalcHierarchy ls)[i]? =
      some (doneEntry (lineChildren ls) (recalcFinalState ls) lj) := by
    rw [recalcHierarchy_entry ls i lj hi, hentry]
    rfl
  refine ⟨doneEntry (lineChildren ls) (recalcFinalState ls) lj, hout, ?_, ?_, ?_, ?_, ?_⟩
  · simp [doneEntry]
  · simp [doneEntry]
  · intro hleaf
    have hcm : lineChildren ls lj.id = [] := by
      rw [lineChildren_eq_childrenOf hne (List.mem_map_of_mem (fun l => l.id) hl₀), hleaf]
      rfl
    simp [doneEntry, hcm]
  · intro hpar
    have hcm : lineChildren ls lj.id = (childrenOf ls lj.id).map (fun l => l.id) :=
      lineChildren_eq_childrenOf hne (List.mem_map_of_mem (fun l => l.id) hl₀)
    have hcmne : lineChildren ls lj.id ≠ [] := by
      rw [hcm]
      simpa using hpar
    have hchout : childrenOf (recalcHierarchy ls) lj.id =
        (childrenOf ls lj.id).map (fun l => (recalcFinalState ls l.id).getD l) := by
      rw [recalcHierarchy, childrenOf, childrenOf, List.filter_map]
      congr 1
      apply List.filter_congr
      intro l hl
      obtain ⟨x, hxf, _, hxpar, _⟩ := recalcFinal_entry hids hl
      simp only [Function.comp_apply, hxf, Option.getD_some, hxpar]
    have hsum : totalsSum (childrenOf (recalcHierarchy ls) lj.id) =
        (lineChildren ls lj.id).foldl
          (fun a c => a + entryTotal (recalcFinalState ls) c) 0 := by
      rw [hchout, hcm, totalsSum, List.foldl_map, List.foldl_map]
      apply foldl_add_congr
      intro c hc
      have hcls : c ∈ ls := List.mem_of_mem_filter hc
      obtain ⟨x, hxf, _, _, _⟩ := recalcFinal_entry hids hcls
      simp [hxf, entryTotal]
    rw [hsum]
    simp [doneEntry, if_neg hcmne]
  · simp [doneEntry, jsMul3]

/-- C1 counterexample: a single line whose `parentId` names no existing line
is skipped by the walk entirely — its stale `total` of 999 survives
recalculation even though quantity * frequency * unit_cost is 6, so the
claim does not hold for arbitrary documents. -/
theorem recalc_orphan_breaks_totals :
    recalcHierarchy [{ id := "o", parentId := some "zzz", quantity := some 2,
                       frequency := some 1, unit_cost := some 3, total := some 999 }] =
      [{ id := "o", parentId := some "zzz", quantity := some 2,
         frequency := some 1, unit_cost := some 3, total := some 999 }] ∧
    (some (999 : ℚ)) ≠ jsMul3 (some 2) (some 1) (some 3) := by decide

theorem recalc_leaf_parent_totals_witness :
    ∃ x, (recalcHierarchy [
        { id := "p", quantity := some 2, frequency := some 3, unit_cost := some 5 },
        ({ id := "c", parentId := some "p", quantity := some 4, frequency := some 1,
           unit_cost := some 5 } : BudgetLine)])[0]? = some x ∧
      x.quantity = some (sanitizeNum (some 2)) ∧
      x.frequency = some (sanitizeNum (some 3)) ∧
      (childrenOf [
        { id := "p", quantity := some 2, frequency := some 3, unit_cost := some 5 },
        ({ id := "c", parentId := some "p", quantity := some 4, frequency := some 1,
           unit_cost := some 5 } : BudgetLine)] "p" = [] →
        x.unit_cost = some (sanitizeNum (some 5))) ∧
      (childrenOf [
        { id := "p", quantity := some 2, frequency := some 3, unit_cost := some 5 },
        ({ id := "c", parentId := some "p", quantity := some 4, frequency := some 1,
           unit_cost := some 5 } : BudgetLine)] "p" ≠ [] →
        x.unit_cost = some (totalsSum (childrenOf (recalcHierarchy [
          { id := "p", quantity := some 2, frequency := some 3, unit_cost := some 5 },
          ({ id := "c", parentId := some "p", quantity := some 4, frequency := some 1,
             unit_cost := some 5 } : BudgetLine)]) "p"))) ∧
      x.total = jsMul3 x.quantity x.frequency x.unit_cost := by
  refine recalc_leaf_parent_totals
      [{ id := "p", quantity := some 2, frequency := some 3, unit_cost := some 5 },
       ({ id := "c", parentId := some "p", quantity := some 4, frequency := some 1,
          unit_cost := some 5 } : BudgetLine)]
      (by decide) (by decide) ?_ 0
      { id := "p", quantity := some 2, frequency := some 3, unit_cost := some 5 } rfl
  intro l hl
  refine ⟨{ id := "p", quantity := some 2, frequency := some 3, unit_cost := some 5 },
    List.mem_cons_self _ _, by decide, ?_⟩
  rcases List.mem_cons.mp hl with rfl | hl
  · exact Relation.ReflTransGen.refl
  · rcases List.mem_cons.mp hl with rfl | hl
    · exact Relation.ReflTransGen.single (show ("c" : String) ∈ lineChildren [
        { id := "p", quantity := some 2, frequency := some 3, unit_cost := some 5 },
        ({ id := "c", parentId := some "p", quantity := some 4, frequency := some 1,
           unit_cost := some 5 } : BudgetLine)] "p" from by decide)
    · cases hl

/-- C2 (amended): a line whose `parentId` is a non-empty string that resolves
to no other line's id (it may dangle, or point at the line itself) is
skipped by recalculation: it is neither a root of the walk nor reachable
from one, so it passes through to the output at its position entirely
unchanged — its numeric fields are not sanitized and its total is not
recomputed.  The engine never throws on such input; it silently ignores the
malformed line. -/
theorem recalc_orphan_passthrough (ls : List BudgetLine)
    (hids : (lineIds ls).Nodup)
    (i : Nat) (o : BudgetLine) (hi : ls[i]? = some o)
    (htr : truthyStr o.parentId = true)
    (hmal : ∀ l ∈ ls, o.parentId = some l.id → l.id = o.id) :
    (recalcHierarchy ls)[i]? = some o := by
  have ho : o ∈ ls := List.getElem?_mem hi
  have hedge : ∀ q, cmStep (lineChildren ls) q o.id → q = o.id := by
    intro q hq
    obtain ⟨l, hl, hlid, hlp, hqne, hqsome⟩ := mem_lineChildren_iff.mp hq
    have hlo : l = o := eq_of_id_eq hids hl ho hlid
    subst hlo
    obtain ⟨lq, hlq, hlqid⟩ := List.mem_map.mp (buildById_isSome_iff.mp hqsome)
    have := hmal lq hlq (by rw [hlp, hlqid])
    rw [← hlqid, this, hlid]
  have huntouched :
      ¬∃ r ∈ ls, ¬truthyStr r.parentId ∧ cmReach (lineChildren ls) r.id o.id := by
    rintro ⟨r, hr, hroot, hreach⟩
    have key : ∀ b, cmReach (lineChildren ls) r.id b → b = o.id → r.id = o.id := by
      intro b hb
      induction hb with
      | refl => exact fun h => h
      | tail hpre hstep ih => exact fun hbo => ih (hedge _ (hbo ▸ hstep))
    have hro : r = o := eq_of_id_eq hids hr ho (key o.id hreach rfl)
    rw [hro] at hroot
    exact hroot htr
  rw [recalcHierarchy_entry ls i o hi, (recalcFinal_spec hids).2 o.id huntouched,
      buildById_mem hids ho]
  rfl

/-- C2 counterexample: a self-referential line is not treated as a root —
recalculation leaves it untouched, so its total stays at the stale 1
instead of the root-style recomputation 4 * 2 * 10 = 80. -/
theorem recalc_orphan_not_recomputed :
    recalcHierarchy [{ id := "s", parentId := some "s", quantity := some 4,
                       frequency := some 2, unit_cost := some 10, total := some 1 }] =
      [{ id := "s", parentId := some "s", quantity := some 4,
         frequency := some 2, unit_cost := some 10, total := some 1 }] ∧
    (some (1 : ℚ)) ≠ jsMul3 (some (sanitizeNum (some 4))) (some (sanitizeNum (some 2)))
      (some (sanitizeNum (some 10))) := by decide

theorem recalc_orphan_passthrough_witness :
    (recalcHierarchy [({ id := "r", unit_cost := some 3 } : BudgetLine),
        { id := "o", parentId := some "x", quantity := some 2,
          frequency := some 1, unit_cost := some 3, total := some 999 }])[1]? =
      some { id := "o", parentId := some "x", quantity := some 2,
             frequency := some 1, unit_cost := some 3, total := some 999 } := by
  refine recalc_orphan_passthrough
      [({ id := "r", unit_cost := some 3 } : BudgetLine),
        { id := "o", parentId := some "x", quantity := some 2,
          frequency := some 1, unit_cost := some 3, total := some 999 }]
      (by decide) 1
      { id := "o", parentId := some "x", quantity := some 2,
        frequency := some 1, unit_cost := some 3, total := some 999 }
      rfl (by decide) ?_
  intro l hl h
  rcases List.mem_cons.mp hl with rfl | hl
  · exact absurd h (by decide)
  · rcases List.mem_cons.mp hl with rfl | hl
    · exact absurd h (by decide)
    · cases hl

/-- Sanitizing an already-present (finite) number is the identity. -/
theorem sanitize_some (q : ℚ) : sanitizeNum (some q) = q := rfl

/-- The recalculated entry standing at a line's id keeps the line's id and
parent reference. -/
theorem recalc_entry_id {ls : List BudgetLine} (hids : (lineIds ls).Nodup)
    {l : BudgetLine} (hl : l ∈ ls) :
    ((recalcFinalState ls l.id).getD l).id = l.id ∧
    ((recalcFinalState ls l.id).getD l).parentId = l.parentId := by
  obtain ⟨x, hx, hxid, hxpar, _⟩ := recalcFinal_entry hids hl
  rw [hx]
  exact ⟨hxid, hxpar⟩

/-- Recalculation permutes no ids: the output's id list is the input's. -/
theorem recalc_ids {ls : List BudgetLine} (hids : (lineIds ls).Nodup) :
    lineIds (recalcHierarchy ls) = lineIds ls := by
  rw [recalcHierarchy, lineIds, List.map_map, lineIds]
  apply List.map_congr_left
  intro l hl
  exact (recalc_entry_id hids hl).1

/-- Two id maps that answer presence identically keep the same children. -/
theorem childKeep_congr {b1 b2 : St} {q : String} {l m : BudgetLine}
    (hpar : m.parentId = l.parentId)
    (hsome : ∀ p, (b1 p).isSome = (b2 p).isSome) :
    childKeep b1 q m = childKeep b2 q l := by
  cases hp : l.parentId with
  | none => simp [childKeep, hpar, hp]
  | some p => simp [childKeep, hpar, hp, hsome p]

/-- Recalculation does not change the engine's adjacency map. -/
theorem recalc_lineChildren {ls : List BudgetLine} (hids : (lineIds ls).Nodup)
    (q : String) :
    lineChildren (recalcHierarchy ls) q = lineChildren ls q := by
  have hsome : ∀ p, (buildById (recalcHierarchy ls) p).isSome =
      (buildById ls p).isSome := by
    intro p
    by_cases h : p ∈ lineIds ls
    · rw [buildById_isSome_iff.mpr h,
        buildById_isSome_iff.mpr (by rw [recalc_ids hids]; exact h)]
    · have h1 : ¬(buildById (recalcHierarchy ls) p).isSome = true := fun hh =>
        h (by rw [← recalc_ids hids]; exact buildById_isSome_iff.mp hh)
      have h2 : ¬(buildById ls p).isSome = true := fun hh => h (buildById_isSome_iff.mp hh)
      rw [Bool.not_eq_true] at h1 h2
      rw [h1, h2]
  have hre : List.map (fun l => (recalcFinalState ls l.id).getD l) ls =
      recalcHierarchy ls := rfl
  rw [lineChildren_apply, lineChildren_apply, recalcHierarchy, List.filter_map,
    List.map_map, hre]
  have hfil : ls.filter
      ((childKeep (buildById (recalcHierarchy ls)) q) ∘
        (fun l => (recalcFinalState ls l.id).getD l)) =
      ls.filter (childKeep (buildById ls) q) := by
    apply List.filter_congr
    intro l hl
    simp only [Function.comp_apply]
    exact childKeep_congr (recalc_entry_id hids hl).2 hsome
  rw [hfil]
  apply List.map_congr_left
  intro l hl
  exact (recalc_entry_id hids (List.mem_of_mem_filter hl)).1

/-- An ancestor chain witnesses reachability from a root line. -/
theorem chain_to_reach {ls : List BudgetLine} :
    ∀ {A : List String} {j : String}, AncChain ls A j →
      ∃ r ∈ ls, ¬truthyStr r.parentId ∧ cmReach (lineChildren ls) r.id j := by
  intro A
  induction A with
  | nil =>
      rintro j ⟨r, hr, hrid, hroot⟩
      exact ⟨r, hr, hroot, by rw [hrid]; exact Relation.ReflTransGen.refl⟩
  | cons q A ih =>
      rintro j ⟨hstep, hA⟩
      obtain ⟨r, hr, hroot, hreach⟩ := ih hA
      exact ⟨r, hr, hroot, hreach.tail hstep⟩

/-- Reachability from a root line yields an ancestor chain. -/
theorem reach_to_chain {ls : List BudgetLine} {j : String}
    (h : ∃ r ∈ ls, ¬truthyStr r.parentId ∧ cmReach (lineChildren ls) r.id j) :
    ∃ A, AncChain ls A j := by
  obtain ⟨r, hr, hroot, hreach⟩ := h
  induction hreach with
  | refl => exact ⟨[], r, hr, rfl, hroot⟩
  | tail hpre hstep ih =>
      obtain ⟨A, hA⟩ := ih
      exact ⟨_ :: A, hstep, hA⟩

/-- Ancestor chains survive one application of recalculation. -/
theorem recalc_chain_of_chain {ls : List BudgetLine} (hids : (lineIds ls).Nodup) :
    ∀ {A : List String} {j : String}, AncChain ls A j →
      AncChain (recalcHierarchy ls) A j := by
  intro A
  induction A with
  | nil =>
      rintro j ⟨r, hr, hrid, hroot⟩
      refine ⟨(recalcFinalState ls r.id).getD r, List.mem_map_of_mem _ hr, ?_, ?_⟩
      · rw [(recalc_entry_id hids hr).1, hrid]
      · rw [(recalc_entry_id hids hr).2]
        exact hroot
  | cons q A ih =>
      rintro j ⟨hstep, hA⟩
      exact ⟨by rw [recalc_lineChildren hids]; exact hstep, ih hA⟩

/-- Ancestor chains of the recalculated list come from the input list. -/
theorem recalc_chain_to_chain {ls : List BudgetLine} (hids : (lineIds ls).Nodup) :
    ∀ {A : List String} {j : String}, AncChain (recalcHierarchy ls) A j →
      AncChain ls A j := by
  intro A
  induction A with
  | nil =>
      rintro j ⟨x, hx, hxid, hxroot⟩
      obtain ⟨r, hr, hgr⟩ := List.mem_map.mp hx
      refine ⟨r, hr, ?_, ?_⟩
      · rw [← (recalc_entry_id hids hr).1, hgr, hxid]
      · rw [← (recalc_entry_id hids hr).2, hgr]
        exact hxroot
  | cons q A ih =>
      rintro j ⟨hstep, hA⟩
      exact ⟨by rw [← recalc_lineChildren hids]; exact hstep, ih hA⟩

/-- Fixpoint of the walk on recalculated data: at any id holding an ancestor
chain, a second recalculation pass leaves the map entry exactly as the plain
id map of the recalculated list. -/
theorem recalc_fix_aux {ls : List BudgetLine} (hids : (lineIds ls).Nodup) :
    ∀ (n : Nat) (A : List String) (j : String),
      AncChain (recalcHierarchy ls) A j →
      ls.length + 1 ≤ n + A.length →
      recalcFinalState (recalcHierarchy ls) j = buildById (recalcHierarchy ls) j := by
  have hids₂ : (lineIds (recalcHierarchy ls)).Nodup := by
    rw [recalc_ids hids]
    exact hids
  intro n
  induction n with
  | zero =>
      intro A j hA hn
      have hlen := AncChain.length_le hids₂ hA
      rw [recalcHierarchy, List.length_map] at hlen
      omega
  | succ n ih =>
      intro A j hA hn
      obtain ⟨lj', hlj', hlj'id, hentry₂⟩ :=
        (recalcFinal_spec hids₂).1 j (chain_to_reach hA)
      have hbuild : buildById (recalcHierarchy ls) j = some lj' := by
        rw [← hlj'id]
        exact buildById_mem hids₂ hlj'
      have hA₁ : AncChain ls A j := recalc_chain_to_chain hids hA
      obtain ⟨lj₀, hlj₀, hlj₀id, hentry₁⟩ :=
        (recalcFinal_spec hids).1 j (chain_to_reach hA₁)
      have hglj₀ : (recalcFinalState ls lj₀.id).getD lj₀ ∈ recalcHierarchy ls :=
        List.mem_map_of_mem _ hlj₀
      have hlj'eq : lj' =
          doneEntry (lineChildren ls) (recalcFinalState ls) lj₀ := by
        have h1 : (recalcFinalState ls lj₀.id).getD lj₀ = lj' :=
          eq_of_id_eq hids₂ hglj₀ hlj'
            (by rw [(recalc_entry_id hids hlj₀).1, hlj₀id, hlj'id])
        rw [← h1, hlj₀id, hentry₁]
        rfl
      rw [hentry₂, hbuild]
      congr 1
      rw [hlj'eq]
      have hDid : (doneEntry (lineChildren ls) (recalcFinalState ls) lj₀).id =
          lj₀.id := by
        simp [doneEntry]
      by_cases hleaf : lineChildren ls lj₀.id = []
      · simp [doneEntry, recalc_lineChildren hids, hleaf, sanitize_some]
      · have hfold : ∀ c ∈ lineChildren ls lj₀.id,
            entryTotal (recalcFinalState (recalcHierarchy ls)) c =
              entryTotal (recalcFinalState ls) c := by
          intro c hc
          have hcj : c ∈ lineChildren ls j := by
            rw [← hlj₀id]
            exact hc
          have hstep₂ : c ∈ lineChildren (recalcHierarchy ls) j := by
            rw [recalc_lineChildren hids]
            exact hcj
          have hF2c := ih (j :: A) c ⟨hstep₂, hA⟩ (by simp; omega)
          obtain ⟨lc, hlc, hlcid, hentry_c⟩ :=
            (recalcFinal_spec hids).1 c (chain_to_reach
              (show AncChain ls (j :: A) c from ⟨hcj, hA₁⟩))
          have hglc : (recalcFinalState ls lc.id).getD lc ∈ recalcHierarchy ls :=
            List.mem_map_of_mem _ hlc
          have hbuildc : buildById (recalcHierarchy ls) c =
              some ((recalcFinalState ls lc.id).getD lc) := by
            rw [← show ((recalcFinalState ls lc.id).getD lc).id = c from
              (recalc_entry_id hids hlc).1.trans hlcid]
            exact buildById_mem hids₂ hglc
          have hval : (recalcFinalState ls lc.id).getD lc =
              doneEntry (lineChildren ls) (recalcFinalState ls) lc := by
            rw [hlcid, hentry_c]
            rfl
          rw [entryTotal, entryTotal, hF2c, hbuildc, hval, hentry_c]
        have hu : (lineChildren ls lj₀.id).foldl
              (fun a c => a + entryTotal (recalcFinalState (recalcHierarchy ls)) c) 0 =
            (lineChildren ls lj₀.id).foldl
              (fun a c => a + entryTotal (recalcFinalState ls) c) 0 :=
          foldl_entryTotal_congr _ hfold 0
        simp [doneEntry, recalc_lineChildren hids, hleaf, hu, sanitize_some]

/-- A second recalculation pass leaves the final map at the plain id map of
the recalculated list, at every id. -/
theorem recalc_second_final {ls : List BudgetLine} (hids : (lineIds ls).Nodup)
    (j : String) :
    recalcFinalState (recalcHierarchy ls) j = buildById (recalcHierarchy ls) j := by
  have hids₂ : (lineIds (recalcHierarchy ls)).Nodup := by
    rw [recalc_ids hids]
    exact hids
  by_cases h : ∃ r ∈ recalcHierarchy ls, ¬truthyStr r.parentId ∧
      cmReach (lineChildren (recalcHierarchy ls)) r.id j
  · obtain ⟨A, hA⟩ := reach_to_chain h
    exact recalc_fix_aux hids (ls.length + 1) A j hA (by omega)
  · exact (recalcFinal_spec hids₂).2 j h

/-- C3 (amended): recalculation is idempotent on every line list whose ids
are pairwise distinct — running the engine on its own output returns that
output unchanged.  (With a duplicated id the claim fails: the duplicated
line's stored parent link is overwritten by its namesake's, which rewires
the children map on the second run; see the counterexample.) -/
theorem recalc_idempotent_nodup (ls : List BudgetLine)
    (hids : (lineIds ls).Nodup) :
    recalcHierarchy (recalcHierarchy ls) = recalcHierarchy ls := by
  have hids₂ : (lineIds (recalcHierarchy ls)).Nodup := by
    rw [recalc_ids hids]
    exact hids
  have hpt : ∀ l ∈ recalcHierarchy ls,
      (recalcFinalState (recalcHierarchy ls) l.id).getD l = l := by
    intro l hl
    rw [recalc_second_final hids l.id, buildById_mem hids₂ hl]
    rfl
  exact (List.map_congr_left hpt).trans (List.map_id _)

/-- C3 counterexample: two lines share the id `x` under different parents;
the first pass stores the later line's parent link at both positions, so the
second pass sees `r2` with two children and doubles its unit cost — the
outputs differ. -/
theorem recalc_not_idempotent_dup_ids :
    recalcHierarchy (recalcHierarchy [
      { id := "r1", sectionId := "s", quantity := some 1, frequency := some 1,
        unit_cost := some 0 },
      { id := "r2", sectionId := "s", quantity := some 1, frequency := some 1,
        unit_cost := some 0 },
      { id := "x", sectionId := "s", parentId := some "r1", quantity := some 1,
        frequency := some 1, unit_cost := some 5 },
      { id := "x", sectionId := "s", parentId := some "r2", quantity := some 1,
        frequency := some 1, unit_cost := some 7 }]) ≠
    recalcHierarchy [
      { id := "r1", sectionId := "s", quantity := some 1, frequency := some 1,
        unit_cost := some 0 },
      { id := "r2", sectionId := "s", quantity := some 1, frequency := some 1,
        unit_cost := some 0 },
      { id := "x", sectionId := "s", parentId := some "r1", quantity := some 1,
        frequency := some 1, unit_cost := some 5 },
      { id := "x", sectionId := "s", parentId := some "r2", quantity := some 1,
        frequency := some 1, unit_cost := some 7 }] := by decide

theorem recalc_idempotent_nodup_witness :
    recalcHierarchy (recalcHierarchy [
      ({ id := "p", quantity := some 2, frequency := some 3,
         unit_cost := some 5 } : BudgetLine),
      { id := "c", parentId := some "p", quantity := some 4, frequency := some 1,
        unit_cost := some 5 }]) =
    recalcHierarchy [
      ({ id := "p", quantity := some 2, frequency := some 3,
         unit_cost := some 5 } : BudgetLine),
      { id := "c", parentId := some "p", quantity := some 4, frequency := some 1,
        unit_cost := some 5 }] :=
  recalc_idempotent_nodup _ (by decide)

/-- A node has at most one raw parent when ids are distinct. -/
theorem pcStep_unique {ls : List BudgetLine} (hids : (lineIds ls).Nodup)
    {a b x : String} (ha : pcStep ls a x) (hb : pcStep ls b x) : a = b := by
  obtain ⟨l, hl, hlid, hlp⟩ := ha
  obtain ⟨m, hm, hmid, hmp⟩ := hb
  have : l = m := eq_of_id_eq hids hl hm (hlid.trans hmid.symm)
  subst this
  rw [hlp] at hmp
  exact (Option.some.injEq a b ▸ hmp :)

/-- The target of a raw parent step is a present id. -/
theorem pcStep_mem {ls : List BudgetLine} {a b : String} (h : pcStep ls a b) :
    b ∈ lineIds ls := by
  obtain ⟨l, hl, hlid, _⟩ := h
  exact hlid ▸ List.mem_map_of_mem _ hl

/-- Under a rank certificate, a raw parent step from a present id goes
strictly down in rank. -/
theorem pcStep_rank {ls : List BudgetLine} {rank : String → Nat}
    (hrf : RankedForest ls rank) {a b : String} (ha : a ∈ lineIds ls)
    (h : pcStep ls a b) : rank b < rank a := by
  obtain ⟨l, hl, hlid, hlp⟩ := h
  obtain ⟨p, hp, hpid⟩ := List.mem_map.mp ha
  subst hlid
  exact hpid ▸ hrf l hl p hp (by rw [hlp, hpid])

/-- Descent through raw parent links strictly lowers rank and stays inside
the present ids. -/
theorem desc_rank {ls : List BudgetLine} {rank : String → Nat}
    (hrf : RankedForest ls rank) {a d : String} (h : IsDescendant ls a d)
    (ha : a ∈ lineIds ls) : d ∈ lineIds ls ∧ rank d < rank a := by
  induction h with
  | single hstep => exact ⟨pcStep_mem hstep, pcStep_rank hrf ha hstep⟩
  | tail hpre hstep ih =>
      obtain ⟨hb, hrb⟩ := ih
      exact ⟨pcStep_mem hstep, lt_trans (pcStep_rank hrf hb hstep) hrb⟩

/-- No present id descends from itself. -/
theorem no_self_desc {ls : List BudgetLine} {rank : String → Nat}
    (hrf : RankedForest ls rank) {a : String} (ha : a ∈ lineIds ls) :
    ¬IsDescendant ls a a := fun h => lt_irrefl _ (desc_rank hrf h ha).2

/-- Distinct raw siblings head disjoint raw subtrees. -/
theorem pc_sibling_disjoint {ls : List BudgetLine} (hids : (lineIds ls).Nodup)
    {rank : String → Nat} (hrf : RankedForest ls rank) {q x y : String}
    (hx : pcStep ls q x) (hy : pcStep ls q y) (hne : x ≠ y) {d : String}
    (hdx : Relation.ReflTransGen (pcStep ls) x d)
    (hdy : Relation.ReflTransGen (pcStep ls) y d) : False := by
  have huniq : ∀ a b c, pcStep ls a c → pcStep ls b c → a = b :=
    fun a b c h1 h2 => pcStep_unique hids h1 h2
  have hxy : Relation.ReflTransGen (pcStep ls) x y ∨
      Relation.ReflTransGen (pcStep ls) y x := reflTransGen_diamond huniq hdy x hdx
  have key : ∀ u v : String, pcStep ls q u → pcStep ls q v → u ≠ v →
      Relation.ReflTransGen (pcStep ls) u v → False := by
    intro u v hu hv huv hr
    rcases Relation.ReflTransGen.cases_tail hr with heq | ⟨w, huw, hwv⟩
    · exact huv heq.symm
    · have hwq : w = q := pcStep_unique hids hwv hv
      subst hwq
      rcases Relation.reflTransGen_iff_eq_or_transGen.mp huw with heq | htrans
      · subst heq
        exact lt_irrefl _ (pcStep_rank hrf (pcStep_mem hu) hu)
      · have h1 := desc_rank hrf htrans (pcStep_mem hu)
        have h2 := pcStep_rank hrf h1.1 hu
        omega
  rcases hxy with h | h
  · exact key x y hx hy hne h
  · exact key y x hy hx (Ne.symm hne) h

theorem sum_one_add {α : Type} (L : List α) (f : α → Nat) :
    (L.map (fun x => 1 + f x)).sum = L.length + (L.map f).sum := by
  induction L with
  | nil => rfl
  | cons x L ih => simp [ih]; omega

/-- Pairwise disjoint finsets that partition `S` have cards summing to `S`. -/
theorem sum_card_eq (L : List String) (g : String → Finset String) :
    ∀ (S : Finset String),
      L.Pairwise (fun a b => Disjoint (g a) (g b)) →
      (∀ x ∈ L, g x ⊆ S) →
      (∀ d ∈ S, ∃ x ∈ L, d ∈ g x) →
      (L.map (fun x => (g x).card)).sum = S.card := by
  induction L with
  | nil =>
      intro S _ _ hcover
      have hS : S = ∅ := Finset.eq_empty_of_forall_not_mem (fun d hd => by
        obtain ⟨x, hx, _⟩ := hcover d hd
        exact absurd hx (List.not_mem_nil x))
      rw [hS]
      rfl
  | cons x L ih =>
      intro S hpw hsub hcover
      obtain ⟨hdisj, hpw'⟩ := List.pairwise_cons.mp hpw
      have hsub' : ∀ y ∈ L, g y ⊆ S \ g x := by
        intro y hy
        exact Finset.subset_sdiff.mpr
          ⟨hsub y (List.mem_cons_of_mem x hy), (hdisj y hy).symm⟩
      have hcover' : ∀ d ∈ S \ g x, ∃ y ∈ L, d ∈ g y := by
        intro d hd
        obtain ⟨hdS, hdx⟩ := Finset.mem_sdiff.mp hd
        obtain ⟨y, hy, hdy⟩ := hcover d hdS
        rcases List.mem_cons.mp hy with rfl | hy
        · exact absurd hdy hdx
        · exact ⟨y, hy, hdy⟩
      have hrec := ih (S \ g x) hpw' hsub' hcover'
      have hxS : g x ⊆ S := hsub x (List.mem_cons_self x L)
      have hcards : (S \ g x).card = S.card - (g x).card := Finset.card_sdiff hxS
      have hle : (g x).card ≤ S.card := Finset.card_le_card hxS
      simp only [List.map_cons, List.sum_cons, hrec, hcards]
      omega

/-- Membership of the closure finset is raw-parent reflexive reachability. -/
theorem closure_mem {ls : List BudgetLine} {dset : String → Finset String}
    (hdset : ∀ c d, d ∈ dset c ↔ IsDescendant ls c d) (x d : String) :
    d ∈ insert x (dset x) ↔ Relation.ReflTransGen (pcStep ls) x d := by
  rw [Finset.mem_insert, hdset, Relation.reflTransGen_iff_eq_or_transGen]
  tauto

/-- A child's closure sits inside the parent's strict-descendant set. -/
theorem closure_subset {ls : List BudgetLine} {dset : String → Finset String}
    (hdset : ∀ c d, d ∈ dset c ↔ IsDescendant ls c d) {c x : String}
    (hx : pcStep ls c x) : insert x (dset x) ⊆ dset c := by
  intro d hd
  rw [hdset]
  rcases Finset.mem_insert.mp hd with rfl | hd
  · exact Relation.TransGen.single hx
  · exact Relation.TransGen.head hx ((hdset x d).mp hd)

/-- Full specification of the descendant traversal: started on a stack of
roots with pairwise disjoint raw subtrees and enough fuel, it appends to the
accumulator exactly the strict descendants of the stack entries, without
duplicates. -/
theorem descGo_spec {ls : List BudgetLine} (hids : (lineIds ls).Nodup)
    {rank : String → Nat} (hrf : RankedForest ls rank)
    {dset : String → Finset String}
    (hdset : ∀ c d, d ∈ dset c ↔ IsDescendant ls c d) :
    ∀ (fuel : Nat) (stack acc : List String),
      stack.Pairwise (fun a b => Disjoint (insert a (dset a)) (insert b (dset b))) →
      (stack.map (fun c => 1 + (dset c).card)).sum ≤ fuel →
      ∃ rest, descGo ls fuel stack acc = acc ++ rest ∧
        (∀ d, d ∈ rest ↔ ∃ c ∈ stack, IsDescendant ls c d) ∧
        rest.Nodup ∧
        rest.length = (stack.map (fun c => (dset c).card)).sum := by
  intro fuel
  induction fuel with
  | zero =>
      intro stack acc hpw hfuel
      match stack with
      | [] => exact ⟨[], by simp [descGo], by simp, List.nodup_nil, by simp⟩
      | c :: stack' =>
          simp only [List.map_cons, List.sum_cons] at hfuel
          omega
  | succ f ih =>
      intro stack acc hpw hfuel
      match stack with
      | [] => exact ⟨[], by simp [descGo], by simp, List.nodup_nil, by simp⟩
      | c :: stack' =>
          obtain ⟨hc_st, hpw'⟩ := List.pairwise_cons.mp hpw
          have hcid_mem : ∀ x,
              x ∈ (ls.filter (fun l => l.parentId = some c)).map (fun l => l.id) ↔
                pcStep ls c x := by
            intro x
            simp only [List.mem_map, List.mem_filter, decide_eq_true_eq, pcStep]
            constructor
            · rintro ⟨l, ⟨hl, hp⟩, hid⟩
              exact ⟨l, hl, hid, hp⟩
            · rintro ⟨l, hl, hid, hp⟩
              exact ⟨l, ⟨hl, hp⟩, hid⟩
          have hcid_nd :
              ((ls.filter (fun l => l.parentId = some c)).map (fun l => l.id)).Nodup :=
            List.Nodup.sublist (List.Sublist.map _ (List.filter_sublist ls)) hids
          have hcid_ids : ∀ x,
              x ∈ (ls.filter (fun l => l.parentId = some c)).map (fun l => l.id) →
                x ∈ lineIds ls :=
            fun x hx => pcStep_mem ((hcid_mem x).mp hx)
          have hsib :
              ((ls.filter (fun l => l.parentId = some c)).map (fun l => l.id)).Pairwise
                (fun a b => Disjoint (insert a (dset a)) (insert b (dset b))) := by
            refine List.Pairwise.imp_of_mem ?_ hcid_nd
            intro a b ha hb hne
            rw [Finset.disjoint_left]
            intro d hda hdb
            exact pc_sibling_disjoint hids hrf ((hcid_mem a).mp ha)
              ((hcid_mem b).mp hb) hne
              ((closure_mem hdset a d).mp hda) ((closure_mem hdset b d).mp hdb)
          have hsubc : ∀ x ∈ (ls.filter (fun l => l.parentId = some c)).map
              (fun l => l.id), insert x (dset x) ⊆ dset c :=
            fun x hx => closure_subset hdset ((hcid_mem x).mp hx)
          have hcover : ∀ d ∈ dset c,
              ∃ x ∈ (ls.filter (fun l => l.parentId = some c)).map (fun l => l.id),
                d ∈ insert x (dset x) := by
            intro d hd
            obtain ⟨b, hcb, hbd⟩ := (Relation.TransGen.head'_iff).mp ((hdset c d).mp hd)
            exact ⟨b, (hcid_mem b).mpr hcb, (closure_mem hdset b d).mpr hbd⟩
          have hsum_eq :
              (((ls.filter (fun l => l.parentId = some c)).map (fun l => l.id)).map
                (fun x => (insert x (dset x)).card)).sum = (dset c).card :=
            sum_card_eq _ _ (dset c) hsib hsubc hcover
          have hcard_ins : ∀ x ∈ (ls.filter (fun l => l.parentId = some c)).map
              (fun l => l.id), (insert x (dset x)).card = 1 + (dset x).card := by
            intro x hx
            have hxx : x ∉ dset x := fun hmm =>
              no_self_desc hrf (hcid_ids x hx) ((hdset x x).mp hmm)
            rw [Finset.card_insert_of_not_mem hxx]
            omega
          have hsum1 :
              (((ls.filter (fun l => l.parentId = some c)).map (fun l => l.id)).map
                (fun x => 1 + (dset x).card)).sum = (dset c).card := by
            rw [← hsum_eq]
            exact congrArg List.sum (List.map_congr_left
              (fun x hx => (hcard_ins x hx).symm))
          have hpw'' :
              (((ls.filter (fun l => l.parentId = some c)).map
                (fun l => l.id)).reverse ++ stack').Pairwise
                (fun a b => Disjoint (insert a (dset a)) (insert b (dset b))) := by
            rw [List.pairwise_append]
            refine ⟨List.pairwise_reverse.mpr (hsib.imp fun h => h.symm), hpw', ?_⟩
            intro a ha b hb
            rw [List.mem_reverse] at ha
            exact Finset.disjoint_of_subset_left
              ((hsubc a ha).trans (Finset.subset_insert c (dset c))) (hc_st b hb)
          have hfuel'' :
              ((((ls.filter (fun l => l.parentId = some c)).map
                (fun l => l.id)).reverse ++ stack').map
                (fun x => 1 + (dset x).card)).sum ≤ f := by
            rw [List.map_append, List.sum_append, List.map_reverse, List.sum_reverse,
              hsum1]
            simp only [List.map_cons, List.sum_cons] at hfuel
            omega
          obtain ⟨rest', heq', hmem', hnd', hlen'⟩ :=
            ih (((ls.filter (fun l => l.parentId = some c)).map
              (fun l => l.id)).reverse ++ stack')
              (acc ++ (ls.filter (fun l => l.parentId = some c)).map (fun l => l.id))
              hpw'' hfuel''
          refine ⟨(ls.filter (fun l => l.parentId = some c)).map (fun l => l.id) ++
            rest', ?_, ?_, ?_, ?_⟩
          · show descGo ls (f + 1) (c :: stack') acc = _
            rw [descGo, heq', List.append_assoc]
          · intro d
            rw [List.mem_append]
            constructor
            · rintro (hd | hd)
              · exact ⟨c, List.mem_cons_self c stack',
                  Relation.TransGen.single ((hcid_mem d).mp hd)⟩
              · obtain ⟨x, hx, hxd⟩ := (hmem' d).mp hd
                rw [List.mem_append, List.mem_reverse] at hx
                rcases hx with hx | hx
                · exact ⟨c, List.mem_cons_self c stack',
                    Relation.TransGen.head ((hcid_mem x).mp hx) hxd⟩
                · exact ⟨x, List.mem_cons_of_mem c hx, hxd⟩
            · rintro ⟨c₀, hc₀, hdesc⟩
              rcases List.mem_cons.mp hc₀ with rfl | hc₀
              · obtain ⟨b, hcb, hbd⟩ := (Relation.TransGen.head'_iff).mp hdesc
                rcases Relation.reflTransGen_iff_eq_or_transGen.mp hbd with rfl | hbd
                · exact Or.inl ((hcid_mem d).mpr hcb)
                · refine Or.inr ((hmem' d).mpr ⟨b, ?_, hbd⟩)
                  rw [List.mem_append, List.mem_reverse]
                  exact Or.inl ((hcid_mem b).mpr hcb)
              · refine Or.inr ((hmem' d).mpr ⟨c₀, ?_, hdesc⟩)
                rw [List.mem_append]
                exact Or.inr hc₀
          · refine List.Nodup.append hcid_nd hnd' ?_
            intro a ha ha'
            obtain ⟨x, hx, hxa⟩ := (hmem' a).mp ha'
            rw [List.mem_append, List.mem_reverse] at hx
            rcases hx with hx | hx
            · by_cases hax : a = x
              · subst hax
                exact no_self_desc hrf (hcid_ids a ha) hxa
              · exact pc_sibling_disjoint hids hrf ((hcid_mem x).mp hx)
                  ((hcid_mem a).mp ha) (Ne.symm hax)
                  (Relation.reflTransGen_iff_eq_or_transGen.mpr (Or.inr hxa))
                  Relation.ReflTransGen.refl
            · have h1 : a ∈ insert c (dset c) :=
                Finset.mem_insert_of_mem ((hdset c a).mpr
                  (Relation.TransGen.single ((hcid_mem a).mp ha)))
              have h2 : a ∈ insert x (dset x) :=
                Finset.mem_insert_of_mem ((hdset x a).mpr hxa)
              exact Finset.disjoint_left.mp (hc_st x hx) h1 h2
          · rw [List.length_append, hlen', List.map_append, List.sum_append,
              List.map_reverse, List.sum_reverse, List.map_cons, List.sum_cons]
            have := sum_one_add ((ls.filter (fun l => l.parentId = some c)).map
              (fun l => l.id)) (fun x => (dset x).card)
            omega

/-- `getDescendantIds` collects exactly the strict raw descendants of a
present id, each once. -/
theorem getDescendantIds_spec {ls : List BudgetLine} (hids : (lineIds ls).Nodup)
    {rank : String → Nat} (hrf : RankedForest ls rank) {root : String}
    (hmem : root ∈ lineIds ls) :
    (∀ d, d ∈ getDescendantIds root ls ↔ IsDescendant ls root d) ∧
    (getDescendantIds root ls).Nodup := by
  classical
  have hdmem : ∀ {c d : String}, IsDescendant ls c d → d ∈ lineIds ls := by
    intro c d hd
    cases hd with
    | single h => exact pcStep_mem h
    | tail _ h => exact pcStep_mem h
  have hfin : ∀ c : String, {d | IsDescendant ls c d}.Finite := fun c =>
    Set.Finite.subset (List.finite_toSet (lineIds ls)) (fun d hd => hdmem hd)
  have hdset : ∀ c d, d ∈ (hfin c).toFinset ↔ IsDescendant ls c d := fun c d =>
    Set.Finite.mem_toFinset _
  have hsub : (hfin root).toFinset ⊆ (lineIds ls).toFinset := by
    intro d hd
    exact List.mem_toFinset.mpr (hdmem ((hdset root d).mp hd))
  have hfuel : ([root].map (fun c => 1 + ((hfin c).toFinset).card)).sum ≤
      ls.length + 1 := by
    have h1 : ((hfin root).toFinset).card ≤ (lineIds ls).toFinset.card :=
      Finset.card_le_card hsub
    have h2 : (lineIds ls).toFinset.card ≤ (lineIds ls).length :=
      List.toFinset_card_le _
    have h3 : (lineIds ls).length = ls.length := List.length_map ls _
    simp only [List.map_cons, List.map_nil, List.sum_cons, List.sum_nil]
    omega
  obtain ⟨rest, heq, hmem', hnd, _⟩ := descGo_spec hids hrf hdset
    (ls.length + 1) [root] [] (List.pairwise_singleton _ _) hfuel
  have hout : getDescendantIds root ls = rest := by
    rw [getDescendantIds, heq]
    rfl
  rw [hout]
  refine ⟨fun d => (hmem' d).trans ?_, hnd⟩
  simp

/-- C4 (amended): for a list with distinct ids whose resolving parent links
are acyclic (certified by a rank function), deleting a present id removes
exactly the targeted line and its transitive raw descendants — membership
drops precisely on that subtree, the survivors form a sublist (order and
fields untouched), none of them references the deleted id as parent, and the
removal count is one plus the number of distinct descendants. -/
theorem delete_cascade_exact (ls : List BudgetLine)
    (hids : (lineIds ls).Nodup) (rank : String → Nat)
    (hrf : RankedForest ls rank) (lineId : String)
    (hmem : lineId ∈ lineIds ls) :
    (∀ l ∈ ls, l ∈ deleteLine lineId ls ↔
      ¬(l.id = lineId ∨ IsDescendant ls lineId l.id)) ∧
    List.Sublist (deleteLine lineId ls) ls ∧
    (∀ l ∈ deleteLine lineId ls, l.parentId ≠ some lineId) ∧
    ls.length = (deleteLine lineId ls).length + 1 +
      (getDescendantIds lineId ls).length ∧
    (∀ d, d ∈ getDescendantIds lineId ls ↔ IsDescendant ls lineId d) ∧
    (getDescendantIds lineId ls).Nodup := by
  obtain ⟨hdesc, hdnd⟩ := getDescendantIds_spec hids hrf hmem
  obtain ⟨w, hw, hwid⟩ := List.mem_map.mp hmem
  have hfind : (ls.find? (fun l => l.id = lineId)).isSome := by
    rw [List.find?_isSome]
    exact ⟨w, hw, by simp [hwid]⟩
  obtain ⟨v, hv⟩ := Option.isSome_iff_exists.mp hfind
  have hdel : deleteLine lineId ls = ls.filter
      (fun l => ¬(l.id = lineId) ∧ ¬(l.id ∈ getDescendantIds lineId ls)) := by
    rw [deleteLine, hv]
  have hsubl : List.Sublist (deleteLine lineId ls) ls := by
    rw [hdel]
    exact List.filter_sublist ls
  have hmem_iff : ∀ l ∈ ls, l ∈ deleteLine lineId ls ↔
      ¬(l.id = lineId ∨ IsDescendant ls lineId l.id) := by
    intro l hl
    rw [hdel, List.mem_filter]
    simp only [hl, true_and, decide_eq_true_eq, not_or]
    constructor
    · rintro ⟨h1, h2⟩
      exact ⟨h1, fun hd => h2 ((hdesc l.id).mpr hd)⟩
    · rintro ⟨h1, h2⟩
      exact ⟨h1, fun hd => h2 ((hdesc l.id).mp hd)⟩
  refine ⟨hmem_iff, hsubl, ?_, ?_, hdesc, hdnd⟩
  · intro l hl hpar
    have hls : l ∈ ls := hsubl.mem hl
    exact (hmem_iff l hls).mp hl
      (Or.inr (Relation.TransGen.single ⟨l, hls, rfl, hpar⟩))
  · have hnotself : lineId ∉ getDescendantIds lineId ls := fun h =>
      no_self_desc hrf hmem ((hdesc lineId).mp h)
    have hsubids : ∀ d ∈ getDescendantIds lineId ls, d ∈ lineIds ls := by
      intro d hd
      cases (hdesc d).mp hd with
      | single h => exact pcStep_mem h
      | tail _ h => exact pcStep_mem h
    have hperm : ((lineIds ls).filter
        (fun k => k = lineId ∨ k ∈ getDescendantIds lineId ls)).Perm
        (lineId :: getDescendantIds lineId ls) := by
      apply List.perm_of_nodup_nodup_toFinset_eq
      · exact List.Nodup.filter _ hids
      · exact List.nodup_cons.mpr ⟨hnotself, hdnd⟩
      · ext k
        simp only [List.mem_toFinset, List.mem_filter, List.mem_cons,
          decide_eq_true_eq]
        constructor
        · rintro ⟨_, h⟩
          exact h
        · rintro (rfl | h)
          · exact ⟨hmem, Or.inl rfl⟩
          · exact ⟨hsubids k h, Or.inr h⟩
    have hpred : ∀ l : BudgetLine,
        (decide (¬(l.id = lineId) ∧ ¬(l.id ∈ getDescendantIds lineId ls))) =
        !(decide (l.id = lineId ∨ l.id ∈ getDescendantIds lineId ls)) := by
      intro l
      by_cases h1 : l.id = lineId <;>
        by_cases h2 : l.id ∈ getDescendantIds lineId ls <;> simp [h1, h2]
    have hdel' : deleteLine lineId ls = ls.filter
        (fun l => !(decide (l.id = lineId ∨ l.id ∈ getDescendantIds lineId ls))) :=
      hdel.trans (List.filter_congr (fun l _ => hpred l))
    have hsplit : ls.length = (ls.filter
        (fun l => decide (l.id = lineId ∨ l.id ∈ getDescendantIds lineId ls))).length +
        (deleteLine lineId ls).length := by
      rw [hdel']
      exact List.length_eq_length_filter_add _
    have hcomp : (fun (l : BudgetLine) =>
        decide (l.id = lineId ∨ l.id ∈ getDescendantIds lineId ls)) =
        ((fun k => decide (k = lineId ∨ k ∈ getDescendantIds lineId ls)) ∘
          (fun l => l.id)) := rfl
    have hmap : (ls.filter (fun l =>
        decide (l.id = lineId ∨ l.id ∈ getDescendantIds lineId ls))).length =
        ((lineIds ls).filter
          (fun k => k = lineId ∨ k ∈ getDescendantIds lineId ls)).length := by
      rw [hcomp, lineIds, ← List.length_map _ (fun l => l.id), List.map_filter]
    have hlen2 : ((lineIds ls).filter
        (fun k => k = lineId ∨ k ∈ getDescendantIds lineId ls)).length =
        1 + (getDescendantIds lineId ls).length := by
      rw [hperm.length_eq, List.length_cons]
      omega
    omega

/-- C4 counterexample: with a duplicated id `x`, deleting `x` removes three
lines (both namesakes and the descendant `c`) even though the deleted line
has a single transitive descendant, so the removal count is not N + 1 and a
sibling namesake — an unrelated line — disappears. -/
theorem delete_dup_ids_overdelete :
    deleteLine "x" [
      { id := "r", sectionId := "s" },
      { id := "x", sectionId := "s", parentId := some "r" },
      { id := "x", sectionId := "s", parentId := some "r" },
      ({ id := "c", sectionId := "s", parentId := some "x" } : BudgetLine)] =
      [{ id := "r", sectionId := "s" }] ∧
    ((([{ id := "r", sectionId := "s" },
      { id := "x", sectionId := "s", parentId := some "r" },
      { id := "x", sectionId := "s", parentId := some "r" },
      ({ id := "c", sectionId := "s", parentId := some "x" } : BudgetLine)] :
        List BudgetLine).filter
      (fun l => l.parentId = some "x")).map (fun l => l.id)) = ["c"] := by decide

theorem delete_cascade_exact_witness :
    (∀ l ∈ ([{ id := "p" }, { id := "c", parentId := some "p" },
        ({ id := "d", parentId := some "c" } : BudgetLine)] : List BudgetLine),
      l ∈ deleteLine "c" [{ id := "p" }, { id := "c", parentId := some "p" },
        ({ id := "d", parentId := some "c" } : BudgetLine)] ↔
      ¬(l.id = "c" ∨ IsDescendant [{ id := "p" }, { id := "c", parentId := some "p" },
        ({ id := "d", parentId := some "c" } : BudgetLine)] "c" l.id)) ∧
    List.Sublist (deleteLine "c" [{ id := "p" }, { id := "c", parentId := some "p" },
        ({ id := "d", parentId := some "c" } : BudgetLine)])
      [{ id := "p" }, { id := "c", parentId := some "p" },
        ({ id := "d", parentId := some "c" } : BudgetLine)] ∧
    (∀ l ∈ deleteLine "c" [{ id := "p" }, { id := "c", parentId := some "p" },
        ({ id := "d", parentId := some "c" } : BudgetLine)],
      l.parentId ≠ some "c") ∧
    ([{ id := "p" }, { id := "c", parentId := some "p" },
        ({ id := "d", parentId := some "c" } : BudgetLine)] : List BudgetLine).length =
      (deleteLine "c" [{ id := "p" }, { id := "c", parentId := some "p" },
        ({ id := "d", parentId := some "c" } : BudgetLine)]).length + 1 +
      (getDescendantIds "c" [{ id := "p" }, { id := "c", parentId := some "p" },
        ({ id := "d", parentId := some "c" } : BudgetLine)]).length ∧
    (∀ d, d ∈ getDescendantIds "c" [{ id := "p" }, { id := "c", parentId := some "p" },
        ({ id := "d", parentId := some "c" } : BudgetLine)] ↔
      IsDescendant [{ id := "p" }, { id := "c", parentId := some "p" },
        ({ id := "d", parentId := some "c" } : BudgetLine)] "c" d) ∧
    (getDescendantIds "c" [{ id := "p" }, { id := "c", parentId := some "p" },
        ({ id := "d", parentId := some "c" } : BudgetLine)]).Nodup :=
  delete_cascade_exact
    [{ id := "p" }, { id := "c", parentId := some "p" },
      ({ id := "d", parentId := some "c" } : BudgetLine)]
    (by decide)
    (fun k => if k = "p" then 2 else if k = "c" then 1 else 0)
    (by unfold RankedForest; decide) "c" (by decide)

/-- C6 (amended): for a list with distinct ids and acyclic resolving parent
links, dropping a present dragged line onto a section keeps the list's
length and positions, rewrites the dragged line's sectionId to the target
and clears its parentId, rewrites exactly the dragged line's transitive
descendants' sectionId (their other fields, parent links included,
untouched), and leaves every other line literally unchanged. -/
theorem drop_on_section_spec (ls : List BudgetLine)
    (hids : (lineIds ls).Nodup) (rank : String → Nat)
    (hrf : RankedForest ls rank) (dragged target : String)
    (hmem : dragged ∈ lineIds ls) :
    (handleDropOnSection dragged target ls).length = ls.length ∧
    ∀ (i : Nat) (l₀ : BudgetLine), ls[i]? = some l₀ →
      ∃ x, (handleDropOnSection dragged target ls)[i]? = some x ∧
        (l₀.id = dragged → x = { l₀ with sectionId := target, parentId := none }) ∧
        (l₀.id ≠ dragged → IsDescendant ls dragged l₀.id →
          x = { l₀ with sectionId := target }) ∧
        (l₀.id ≠ dragged → ¬IsDescendant ls dragged l₀.id → x = l₀) := by
  obtain ⟨hdesc, _⟩ := getDescendantIds_spec hids hrf hmem
  obtain ⟨w, hw, hwid⟩ := List.mem_map.mp hmem
  have hfind : (ls.find? (fun l => l.id = dragged)).isSome := by
    rw [List.find?_isSome]
    exact ⟨w, hw, by simp [hwid]⟩
  obtain ⟨dl, hdl⟩ := Option.isSome_iff_exists.mp hfind
  have hdlid : dl.id = dragged := by simpa using List.find?_some hdl
  have hout : handleDropOnSection dragged target ls = ls.map (fun l =>
      if l.id = dragged then { l with sectionId := target, parentId := none }
      else if l.id ∈ getDescendantIds dl.id ls then { l with sectionId := target }
      else l) := by
    rw [handleDropOnSection, hdl]
  constructor
  · rw [hout, List.length_map]
  · intro i l₀ hi
    refine ⟨_, by rw [hout, List.getElem?_map, hi]; rfl, ?_, ?_, ?_⟩
    · intro hid
      simp [hid]
    · intro hid hd
      have : l₀.id ∈ getDescendantIds dl.id ls := by
        rw [hdlid]
        exact (hdesc l₀.id).mpr hd
      simp [hid, this]
    · intro hid hd
      have : l₀.id ∉ getDescendantIds dl.id ls := by
        rw [hdlid]
        exact fun h => hd ((hdesc l₀.id).mp h)
      simp [hid, this]

/-- C6 counterexample: with a duplicated id, dropping `x` onto section `T`
also clears the parent link and moves the section of the namesake line — an
unrelated line is not left unchanged. -/
theorem drop_dup_ids_mutates_namesake :
    handleDropOnSection "x" "T" [
      { id := "r", sectionId := "s" },
      { id := "x", sectionId := "s", parentId := some "r" },
      ({ id := "x", sectionId := "s", parentId := some "r" } : BudgetLine)] =
      [{ id := "r", sectionId := "s" },
       { id := "x", sectionId := "T" },
       ({ id := "x", sectionId := "T" } : BudgetLine)] := by decide

theorem drop_on_section_spec_witness :
    (handleDropOnSection "c" "T" [{ id := "p", sectionId := "s" },
      { id := "c", sectionId := "s", parentId := some "p" },
      ({ id := "d", sectionId := "s", parentId := some "c" } : BudgetLine)]).length =
      ([{ id := "p", sectionId := "s" },
        { id := "c", sectionId := "s", parentId := some "p" },
        ({ id := "d", sectionId := "s", parentId := some "c" } : BudgetLine)] :
          List BudgetLine).length ∧
    ∀ (i : Nat) (l₀ : BudgetLine),
      ([{ id := "p", sectionId := "s" },
        { id := "c", sectionId := "s", parentId := some "p" },
        ({ id := "d", sectionId := "s", parentId := some "c" } : BudgetLine)] :
          List BudgetLine)[i]? = some l₀ →
      ∃ x, (handleDropOnSection "c" "T" [{ id := "p", sectionId := "s" },
        { id := "c", sectionId := "s", parentId := some "p" },
        ({ id := "d", sectionId := "s", parentId := some "c" } : BudgetLine)])[i]? =
          some x ∧
        (l₀.id = "c" → x = { l₀ with sectionId := "T", parentId := none }) ∧
        (l₀.id ≠ "c" → IsDescendant [{ id := "p", sectionId := "s" },
          { id := "c", sectionId := "s", parentId := some "p" },
          ({ id := "d", sectionId := "s", parentId := some "c" } : BudgetLine)]
            "c" l₀.id → x = { l₀ with sectionId := "T" }) ∧
        (l₀.id ≠ "c" → ¬IsDescendant [{ id := "p", sectionId := "s" },
          { id := "c", sectionId := "s", parentId := some "p" },
          ({ id := "d", sectionId := "s", parentId := some "c" } : BudgetLine)]
            "c" l₀.id → x = l₀) :=
  drop_on_section_spec
    [{ id := "p", sectionId := "s" },
      { id := "c", sectionId := "s", parentId := some "p" },
      ({ id := "d", sectionId := "s", parentId := some "c" } : BudgetLine)]
    (by decide)
    (fun k => if k = "p" then 2 else if k = "c" then 1 else 0)
    (by unfold RankedForest; decide) "c" "T" (by decide)

theorem nodup_flatMap {α β : Type} (L : List α) (f : α → List β)
    (h1 : ∀ a ∈ L, (f a).Nodup)
    (h2 : L.Pairwise (fun a b => ∀ x, x ∈ f a → x ∈ f b → False)) :
    (L.flatMap f).Nodup := by
  induction L with
  | nil => exact List.nodup_nil
  | cons a L ih =>
      rw [List.flatMap_cons]
      obtain ⟨hd, hpw⟩ := List.pairwise_cons.mp h2
      refine List.Nodup.append (h1 a (List.mem_cons_self a L)) (ih ?_ hpw) ?_
      · exact fun b hb => h1 b (List.mem_cons_of_mem a hb)
      · intro x hx hx'
        obtain ⟨b, hb, hxb⟩ := List.mem_flatMap.mp hx'
        exact hd b hb x hx hxb

/-- The rank-bounded potential that forces the subtree recursion to finish. -/
theorem rank_measure_lt {ls : List BudgetLine} {rank : String → Nat}
    (hrf : RankedForest ls rank) {lid c : String} (hlid : lid ∈ lineIds ls)
    (hc : pcStep ls lid c) :
    ((lineIds ls).toFinset.filter (fun d => rank d ≤ rank c)).card <
      ((lineIds ls).toFinset.filter (fun d => rank d ≤ rank lid)).card := by
  have hrk : rank c < rank lid := pcStep_rank hrf hlid hc
  have hsub : (lineIds ls).toFinset.filter (fun d => rank d ≤ rank c) ⊆
      (lineIds ls).toFinset.filter (fun d => rank d ≤ rank lid) := by
    intro d hd
    obtain ⟨hd1, hd2⟩ := Finset.mem_filter.mp hd
    exact Finset.mem_filter.mpr ⟨hd1, by omega⟩
  have hlidmem : lid ∈ (lineIds ls).toFinset.filter (fun d => rank d ≤ rank lid) :=
    Finset.mem_filter.mpr ⟨List.mem_toFinset.mpr hlid, le_refl _⟩
  have hlidnot : lid ∉ (lineIds ls).toFinset.filter (fun d => rank d ≤ rank c) := by
    intro h
    have := (Finset.mem_filter.mp h).2
    omega
  exact Finset.card_lt_card ⟨hsub, fun h => hlidnot (h hlidmem)⟩

/-- Full specification of the subtree collection of `duplicateLine`: with
enough fuel it lists the line of a present id together with every line
reachable downward from it, ids pairwise distinct, the line itself first. -/
theorem buildSubtree_spec {ls : List BudgetLine} (hids : (lineIds ls).Nodup)
    {rank : String → Nat} (hrf : RankedForest ls rank) :
    ∀ (fuel : Nat) (lid : String), lid ∈ lineIds ls →
      ((lineIds ls).toFinset.filter (fun d => rank d ≤ rank lid)).card ≤ fuel →
      (∀ x, x ∈ buildSubtree ls fuel lid ↔
        x ∈ ls ∧ Relation.ReflTransGen (pcStep ls) lid x.id) ∧
      ((buildSubtree ls fuel lid).map (fun l => l.id)).Nodup ∧
      (∃ w T, buildSubtree ls fuel lid = w :: T ∧ w ∈ ls ∧ w.id = lid) := by
  intro fuel
  induction fuel with
  | zero =>
      intro lid hlid hfuel
      have : lid ∈ (lineIds ls).toFinset.filter (fun d => rank d ≤ rank lid) :=
        Finset.mem_filter.mpr ⟨List.mem_toFinset.mpr hlid, le_refl _⟩
      have := Finset.card_pos.mpr ⟨lid, this⟩
      omega
  | succ f ih =>
      intro lid hlid hfuel
      obtain ⟨w, hw, hwid⟩ := List.mem_map.mp hlid
      have hfind : (ls.find? (fun l => l.id = lid)).isSome := by
        rw [List.find?_isSome]
        exact ⟨w, hw, by simp [hwid]⟩
      obtain ⟨line, hline⟩ := Option.isSome_iff_exists.mp hfind
      have hlineid : line.id = lid := by simpa using List.find?_some hline
      have hlinemem : line ∈ ls := List.mem_of_find?_eq_some hline
      have hstep : buildSubtree ls (f + 1) lid =
          line :: (ls.filter (fun l => l.parentId = some lid)).flatMap
            (fun child => buildSubtree ls f child.id) := by
        rw [buildSubtree, hline]
      have hchild : ∀ c ∈ ls.filter (fun l => l.parentId = some lid),
          pcStep ls lid c.id := by
        intro c hc
        obtain ⟨hcls, hcp⟩ := List.mem_filter.mp hc
        exact ⟨c, hcls, rfl, by simpa using hcp⟩
      have hsubfuel : ∀ c ∈ ls.filter (fun l => l.parentId = some lid),
          c.id ∈ lineIds ls ∧
          ((lineIds ls).toFinset.filter (fun d => rank d ≤ rank c.id)).card ≤ f := by
        intro c hc
        have h1 := rank_measure_lt hrf hlid (hchild c hc)
        exact ⟨pcStep_mem (hchild c hc), by omega⟩
      have hmemTree : ∀ x, x ∈ buildSubtree ls (f + 1) lid ↔
          x ∈ ls ∧ Relation.ReflTransGen (pcStep ls) lid x.id := by
        intro x
        rw [hstep, List.mem_cons, List.mem_flatMap]
        constructor
        · rintro (rfl | ⟨c, hc, hxc⟩)
          · exact ⟨hlinemem, by rw [hlineid]⟩
          · obtain ⟨hc1, hc2⟩ := hsubfuel c hc
            obtain ⟨hx1, hx2⟩ := ((ih c.id hc1 hc2).1 x).mp hxc
            exact ⟨hx1, Relation.ReflTransGen.head (hchild c hc) hx2⟩
        · rintro ⟨hx, hreach⟩
          rcases Relation.ReflTransGen.cases_head hreach with heq | ⟨b, hb, hbx⟩
          · left
            exact (eq_of_id_eq hids hx hlinemem (by rw [← heq, hlineid])).symm ▸ rfl
          · obtain ⟨l', hl', hl'id, hl'p⟩ := hb
            right
            refine ⟨l', List.mem_filter.mpr ⟨hl', by simp [hl'p]⟩, ?_⟩
            obtain ⟨h1, h2⟩ := hsubfuel l' (List.mem_filter.mpr ⟨hl', by simp [hl'p]⟩)
            exact ((ih l'.id h1 h2).1 x).mpr ⟨hx, by rw [hl'id]; exact hbx⟩
      refine ⟨hmemTree, ?_, line,
        (ls.filter (fun l => l.parentId = some lid)).flatMap
          (fun child => buildSubtree ls f child.id), hstep, hlinemem, hlineid⟩
      rw [hstep, List.map_cons]
      have hchildnd : ((ls.filter (fun l => l.parentId = some lid)).map
          (fun l => l.id)).Nodup :=
        List.Nodup.sublist (List.Sublist.map _ (List.filter_sublist ls)) hids
      have hflat : (((ls.filter (fun l => l.parentId = some lid)).flatMap
          (fun child => buildSubtree ls f child.id)).map (fun l => l.id)) =
          (ls.filter (fun l => l.parentId = some lid)).flatMap
            (fun child => (buildSubtree ls f child.id).map (fun l => l.id)) := by
        rw [List.map_flatMap]
      have hndflat : (((ls.filter (fun l => l.parentId = some lid)).flatMap
          (fun child => buildSubtree ls f child.id)).map (fun l => l.id)).Nodup := by
        rw [hflat]
        apply nodup_flatMap
        · intro c hc
          obtain ⟨h1, h2⟩ := hsubfuel c hc
          exact (ih c.id h1 h2).2.1
        · have hndlines : (ls.filter (fun l => l.parentId = some lid)).Pairwise
              (fun a b => a.id ≠ b.id) := List.pairwise_map.mp hchildnd
          refine List.Pairwise.imp_of_mem ?_ hndlines
          intro a b ha hb hne x hxa hxb
          obtain ⟨y, hy, hyid⟩ := List.mem_map.mp hxa
          obtain ⟨z, hz, hzid⟩ := List.mem_map.mp hxb
          obtain ⟨ha1, ha2⟩ := hsubfuel a ha
          obtain ⟨hb1, hb2⟩ := hsubfuel b hb
          have hya := ((ih a.id ha1 ha2).1 y).mp hy
          have hzb := ((ih b.id hb1 hb2).1 z).mp hz
          exact pc_sibling_disjoint hids hrf (hchild a ha) (hchild b hb) hne
            (hyid ▸ hya.2) (hzid ▸ hzb.2)
      have hheadnot : line.id ∉ (((ls.filter (fun l => l.parentId = some lid)).flatMap
          (fun child => buildSubtree ls f child.id)).map (fun l => l.id)) := by
        intro hmem'
        rw [hflat] at hmem'
        obtain ⟨c, hc, hcm⟩ := List.mem_flatMap.mp hmem'
        obtain ⟨y, hy, hyid⟩ := List.mem_map.mp hcm
        obtain ⟨h1, h2⟩ := hsubfuel c hc
        have hyc := ((ih c.id h1 h2).1 y).mp hy
        have : Relation.ReflTransGen (pcStep ls) c.id lid := by
          rw [← hlineid, ← hyid]
          exact hyc.2
        exact no_self_desc hrf hlid
          (Relation.TransGen.head' (hchild c hc) this)
      exact List.nodup_cons.mpr ⟨hheadnot, hndflat⟩

/-- Ids outside the subtree are untouched by the id map fold. -/
theorem dupIdMap_frame (gen : Nat → String) :
    ∀ (S : List BudgetLine) (n : Nat) (m₀ : String → Option String) (q : String),
      q ∉ S.map (fun l => l.id) →
      ((S.enumFrom n).map (fun p => (p.2.id, gen p.1))).foldl
        (fun m kv => fun x => if x = kv.1 then some kv.2 else m x) m₀ q = m₀ q := by
  intro S
  induction S with
  | nil => intro n m₀ q _; rfl
  | cons s S ih =>
      intro n m₀ q hq
      rw [List.enumFrom_cons, List.map_cons, List.foldl_cons]
      rw [List.map_cons, List.mem_cons] at hq
      push_neg at hq
      rw [ih (n + 1) _ q hq.2]
      simp [hq.1]

/-- With unique subtree ids, the id map sends the k-th subtree id to the
k-th generated id. -/
theorem dupIdMap_at (gen : Nat → String) :
    ∀ (S : List BudgetLine) (n : Nat) (m₀ : String → Option String)
      (k : Nat) (l : BudgetLine),
      (S.map (fun l => l.id)).Nodup → S[k]? = some l →
      ((S.enumFrom n).map (fun p => (p.2.id, gen p.1))).foldl
        (fun m kv => fun x => if x = kv.1 then some kv.2 else m x) m₀ l.id =
        some (gen (n + k)) := by
  intro S
  induction S with
  | nil => intro n m₀ k l _ hk; simp at hk
  | cons s S ih =>
      intro n m₀ k l hnd hk
      rw [List.enumFrom_cons, List.map_cons, List.foldl_cons]
      rw [List.map_cons, List.nodup_cons] at hnd
      match k with
      | 0 =>
          rw [List.getElem?_cons_zero, Option.some.injEq] at hk
          subst hk
          rw [dupIdMap_frame gen S (n + 1) _ s.id hnd.1]
          simp
      | k + 1 =>
          rw [List.getElem?_cons_succ] at hk
          have := ih (n + 1) (fun x => if x = s.id then some (gen n) else m₀ x)
            k l hnd.2 hk
          rw [show n + 1 + k = n + (k + 1) from by omega] at this
          exact this

/-- The id map of `duplicateLine`, characterised by position lookup. -/
theorem dupIdMap_spec {S : List BudgetLine} (gen : Nat → String)
    (hnd : (S.map (fun l => l.id)).Nodup) (q : String) :
    dupIdMap S gen q = match S.findIdx? (fun s => s.id = q) with
      | some j => some (gen j)
      | none => none := by
  match hf : S.findIdx? (fun s => s.id = q) with
  | some j =>
      obtain ⟨hj, hfi⟩ := List.findIdx?_eq_some_iff_findIdx_eq.mp hf
      have h0 := @List.findIdx_getElem _ (fun s => decide (s.id = q)) S
        (by rw [hfi]; exact hj)
      simp only [hfi] at h0
      have hq : (S.get ⟨j, hj⟩).id = q := by simpa using h0
      have hk : S[j]? = some (S.get ⟨j, hj⟩) := List.getElem?_eq_getElem hj
      have hmain := dupIdMap_at gen S 0 (fun _ => none) j (S.get ⟨j, hj⟩) hnd hk
      rw [hq] at hmain
      rw [dupIdMap, hf]
      simpa [List.enum] using hmain
  | none =>
      have hnot : ∀ x ∈ S, ¬(x.id = q) := by
        have := List.findIdx?_eq_none_iff.mp hf
        intro x hx
        simpa using this x hx
      have hq : q ∉ S.map (fun l => l.id) := by
        rw [List.mem_map]
        rintro ⟨x, hx, hxid⟩
        exact hnot x hx hxid
      rw [dupIdMap, hf, show S.enum = S.enumFrom 0 from rfl]
      exact dupIdMap_frame gen S 0 _ q hq

/-- With unique ids, position lookup by a present id returns that position. -/
theorem findIdx_at_of_nodup {S : List BudgetLine}
    (hnd : (S.map (fun l => l.id)).Nodup) {k : Nat} {l : BudgetLine}
    (hk : S[k]? = some l) : S.findIdx? (fun s => s.id = l.id) = some k := by
  have hklen : k < S.length := (List.getElem?_eq_some.mp hk).1
  have hkeq : S.get ⟨k, hklen⟩ = l := by
    have := (List.getElem?_eq_some.mp hk).2
    simpa using this
  match hf : S.findIdx? (fun s => s.id = l.id) with
  | none =>
      have := List.findIdx?_eq_none_iff.mp hf l (List.getElem?_mem hk)
      simp at this
  | some j =>
      obtain ⟨hj, hfi⟩ := List.findIdx?_eq_some_iff_findIdx_eq.mp hf
      have h0 := @List.findIdx_getElem _ (fun s => decide (s.id = l.id)) S
        (by rw [hfi]; exact hj)
      simp only [hfi] at h0
      have hq : (S.get ⟨j, hj⟩).id = l.id := by simpa using h0
      have hmap : (S.map (fun l => l.id)).get
          ⟨j, by rw [List.length_map]; exact hj⟩ =
          (S.map (fun l => l.id)).get ⟨k, by rw [List.length_map]; exact hklen⟩ := by
        simp only [List.get_eq_getElem, List.getElem_map]
        rw [show S[j] = S.get ⟨j, hj⟩ from rfl, show S[k] = S.get ⟨k, hklen⟩ from rfl,
          hq, hkeq]
      have hjk : j = k := (List.Nodup.getElem_inj_iff hnd).mp hmap
      rw [← hjk]
      exact hf

/-- The elementwise description of a subtree clone: fresh id by position,
parent link remapped through the subtree's positions when it lands inside
the subtree. -/
theorem dupClone_formula {S : List BudgetLine} (gen : Nat → String)
    (hnd : (S.map (fun l => l.id)).Nodup) (hne : ∀ s ∈ S, s.id ≠ "")
    (hgen_ne : ∀ i, gen i ≠ "") {k : Nat} {l : BudgetLine}
    (hk : S[k]? = some l) :
    dupClone (dupIdMap S gen) l =
      { l with
        id := gen k,
        parentId := (match l.parentId with
          | none => none
          | some q =>
              (match S.findIdx? (fun s => s.id = q) with
              | some j => some (gen j)
              | none => some q)) } := by
  have hid : dupIdMap S gen l.id = some (gen k) := by
    rw [dupIdMap_spec gen hnd, findIdx_at_of_nodup hnd hk]
  cases hp : l.parentId with
  | none => simp [dupClone, hid, truthyStr, hp]
  | some q =>
      by_cases hq : q = ""
      · subst hq
        have hfq : S.findIdx? (fun s => s.id = "") = none := by
          rw [List.findIdx?_eq_none_iff]
          intro x hx
          simpa using hne x hx
        simp [dupClone, hid, truthyStr, hp, hfq]
      · cases hfq : S.findIdx? (fun s => s.id = q) with
        | some j =>
            simp [dupClone, hid, truthyStr, hp, hq, dupIdMap_spec gen hnd, hfq,
              hgen_ne j]
        | none =>
            simp [dupClone, hid, truthyStr, hp, hq, dupIdMap_spec gen hnd, hfq]

theorem foldl_max_le : ∀ (L : List Nat) (a x : Nat), x ∈ L → x ≤ L.foldl max a := by
  intro L
  induction L with
  | nil => intro a x hx; cases hx
  | cons y L ih =>
      intro a x hx
      rcases List.mem_cons.mp hx with rfl | hx
      · calc x ≤ max a x := le_max_right a x
          _ ≤ L.foldl max (max a x) := by
            clear hx ih
            induction L generalizing a x with
            | nil => exact le_refl _
            | cons z L ihz => exact le_trans (le_max_left _ z) (ihz (max a x) z)
      · exact ih (max a y) x hx

theorem foldl_max_mem : ∀ (L : List Nat) (a : Nat),
    L.foldl max a = a ∨ L.foldl max a ∈ L := by
  intro L
  induction L with
  | nil => intro a; exact Or.inl rfl
  | cons y L ih =>
      intro a
      rcases ih (max a y) with h | h
      · rw [List.foldl_cons, h]
        rcases max_choice a y with h2 | h2
        · exact Or.inl h2
        · refine Or.inr ?_
          rw [h2]
          exact List.mem_cons_self y L
      · exact Or.inr (List.mem_cons_of_mem y h)

theorem map_eq_enum_map {α β : Type} (S : List α) (g : α → β) :
    S.map g = S.enum.map (fun p => g p.2) := by
  conv_lhs => rw [← List.enum_map_snd S]
  rw [List.map_map]
  rfl

theorem nodup_take_insert_drop {α : Type} (L M : List α) (n : Nat)
    (hL : L.Nodup) (hM : M.Nodup) (hdisj : ∀ x ∈ M, x ∉ L) :
    (L.take n ++ M ++ L.drop n).Nodup := by
  have hperm : List.Perm (L.take n ++ M ++ L.drop n) (M ++ L) := by
    refine List.Perm.trans (List.Perm.append_right _ List.perm_append_comm) ?_
    rw [List.append_assoc, List.take_append_drop]
  refine (List.Perm.nodup_iff hperm).mpr ?_
  exact List.Nodup.append hM hL (fun a ha ha2 => hdisj a ha ha2)

/-- C5 (amended): duplicating a present line in a list with distinct
non-empty ids and acyclic resolving parent links — with the id generator
producing distinct fresh non-empty ids — collects the line and exactly its
transitive descendants once each, inserts their clones immediately after the
last original subtree position (originals unchanged and in order), gives the
k-th clone the k-th generated id with its parent link remapped into the
clone family exactly when the parent sits in the subtree, grows the list by
the subtree size, and keeps all output ids pairwise distinct. -/
theorem duplicate_subtree_shape (ls : List BudgetLine)
    (hids : (lineIds ls).Nodup) (hne : ∀ l ∈ ls, l.id ≠ "")
    (rank : String → Nat) (hrf : RankedForest ls rank)
    (gen : Nat → String) (lineId : String)
    (hmem : lineId ∈ lineIds ls)
    (hgen_inj : Function.Injective gen)
    (hgen_fresh : ∀ i, gen i ∉ lineIds ls)
    (hgen_ne : ∀ i, gen i ≠ "") :
    (∀ x, x ∈ buildSubtree ls (ls.length + 1) lineId ↔
      x ∈ ls ∧ (x.id = lineId ∨ IsDescendant ls lineId x.id)) ∧
    ((buildSubtree ls (ls.length + 1) lineId).map (fun l => l.id)).Nodup ∧
    (∃ i s, ls[i]? = some s ∧ s ∈ buildSubtree ls (ls.length + 1) lineId ∧
      (∀ j t, ls[j]? = some t → t ∈ buildSubtree ls (ls.length + 1) lineId →
        j ≤ i) ∧
      duplicateLine gen lineId ls =
        ls.take (i + 1) ++
        (buildSubtree ls (ls.length + 1) lineId).enum.map (fun p =>
          { p.2 with
            id := gen p.1,
            parentId := (match p.2.parentId with
              | none => none
              | some q =>
                  (match (buildSubtree ls (ls.length + 1) lineId).findIdx?
                      (fun s => s.id = q) with
                  | some j => some (gen j)
                  | none => some q)) }) ++
        ls.drop (i + 1)) ∧
    (duplicateLine gen lineId ls).length =
      ls.length + (buildSubtree ls (ls.length + 1) lineId).length ∧
    (lineIds (duplicateLine gen lineId ls)).Nodup := by
  have hfuel : ((lineIds ls).toFinset.filter
      (fun d => rank d ≤ rank lineId)).card ≤ ls.length + 1 := by
    have h1 := Finset.card_filter_le (lineIds ls).toFinset
      (fun d => rank d ≤ rank lineId)
    have h2 := List.toFinset_card_le (lineIds ls)
    have h3 : (lineIds ls).length = ls.length := List.length_map ls _
    omega
  obtain ⟨hmemT, hndT, w, T, hwT, hwls, hwid⟩ :=
    buildSubtree_spec hids hrf (ls.length + 1) lineId hmem hfuel
  have hmemspec : ∀ x, x ∈ buildSubtree ls (ls.length + 1) lineId ↔
      x ∈ ls ∧ (x.id = lineId ∨ IsDescendant ls lineId x.id) := by
    intro x
    rw [hmemT x]
    exact and_congr_right (fun _ => Relation.reflTransGen_iff_eq_or_transGen)
  have hTls : ∀ x ∈ buildSubtree ls (ls.length + 1) lineId, x ∈ ls :=
    fun x hx => ((hmemT x).mp hx).1
  have hTne : ∀ x ∈ buildSubtree ls (ls.length + 1) lineId, x.id ≠ "" :=
    fun x hx => hne x (hTls x hx)
  have hTnonnil : buildSubtree ls (ls.length + 1) lineId ≠ [] := by
    rw [hwT]
    exact List.cons_ne_nil w T
  have hfidx : ∀ l ∈ buildSubtree ls (ls.length + 1) lineId,
      ls.findIdx (fun p => p.id = l.id) < ls.length := by
    intro l hl
    exact List.findIdx_lt_length_of_exists ⟨l, hTls l hl, by simp⟩
  have hfidx_at : ∀ (j : Nat) (t : BudgetLine), ls[j]? = some t →
      ls.findIdx (fun p => p.id = t.id) = j := by
    intro j t hj
    have hjlen : j < ls.length := (List.getElem?_eq_some.mp hj).1
    have hjt : ls.get ⟨j, hjlen⟩ = t := by
      have := (List.getElem?_eq_some.mp hj).2
      simpa using this
    have hlt : ls.findIdx (fun p => p.id = t.id) < ls.length :=
      List.findIdx_lt_length_of_exists ⟨t, List.getElem?_mem hj, by simp⟩
    have h0 := @List.findIdx_getElem _ (fun p => decide (p.id = t.id)) ls hlt
    have hgid : (ls.get ⟨ls.findIdx (fun p => p.id = t.id), hlt⟩).id = t.id := by
      simpa using h0
    have hlines : ls.Nodup := List.Nodup.of_map (fun l => l.id)
      (show (ls.map (fun l => l.id)).Nodup from hids)
    have hgel : ls.get ⟨ls.findIdx (fun p => p.id = t.id), hlt⟩ = t :=
      eq_of_id_eq hids (List.get_mem ls _ hlt) (List.getElem?_mem hj) hgid
    have : ls.get ⟨ls.findIdx (fun p => p.id = t.id), hlt⟩ = ls.get ⟨j, hjlen⟩ := by
      rw [hgel, hjt]
    exact (List.Nodup.getElem_inj_iff hlines).mp this
  have hindices : ((buildSubtree ls (ls.length + 1) lineId).map
      (fun l => ls.findIdx (fun p => p.id = l.id))).filter
      (fun i => i < ls.length) =
      (buildSubtree ls (ls.length + 1) lineId).map
        (fun l => ls.findIdx (fun p => p.id = l.id)) := by
    rw [List.filter_eq_self]
    intro a ha
    obtain ⟨l, hl, hla⟩ := List.mem_map.mp ha
    simpa [← hla] using hfidx l hl
  have hindnil : (buildSubtree ls (ls.length + 1) lineId).map
      (fun l => ls.findIdx (fun p => p.id = l.id)) ≠ [] := by
    intro h
    exact hTnonnil (List.map_eq_nil_iff.mp h)
  obtain ⟨v, hv⟩ : ∃ v, ls.find? (fun l => l.id = lineId) = some v := by
    apply Option.isSome_iff_exists.mp
    rw [List.find?_isSome]
    obtain ⟨u, hu, huid⟩ := List.mem_map.mp hmem
    exact ⟨u, hu, by simp [huid]⟩
  -- the insertion index
  have himax := foldl_max_mem ((buildSubtree ls (ls.length + 1) lineId).map
    (fun l => ls.findIdx (fun p => p.id = l.id))) 0
  have himem : ((buildSubtree ls (ls.length + 1) lineId).map
      (fun l => ls.findIdx (fun p => p.id = l.id))).foldl max 0 ∈
      (buildSubtree ls (ls.length + 1) lineId).map
        (fun l => ls.findIdx (fun p => p.id = l.id)) := by
    rcases himax with h | h
    · obtain ⟨a, rest, hT⟩ := List.exists_cons_of_ne_nil hindnil
      have hamem : a ∈ (buildSubtree ls (ls.length + 1) lineId).map
          (fun l => ls.findIdx (fun p => p.id = l.id)) := by
        rw [hT]
        exact List.mem_cons_self a rest
      have ha := foldl_max_le _ 0 a hamem
      rw [h] at ha
      rw [h, hT]
      have ha0 : a = 0 := by omega
      rw [← ha0]
      exact List.mem_cons_self a rest
    · exact h
  obtain ⟨sline, hsline, hsidx⟩ := List.mem_map.mp himem
  have hsls : sline ∈ ls := hTls sline hsline
  have hslt : ls.findIdx (fun p => p.id = sline.id) < ls.length := hfidx sline hsline
  have hsat : ls[((buildSubtree ls (ls.length + 1) lineId).map
      (fun l => ls.findIdx (fun p => p.id = l.id))).foldl max 0]? = some sline := by
    rw [← hsidx]
    have h0 := @List.findIdx_getElem _ (fun p => decide (p.id = sline.id)) ls hslt
    have hgel : ls.get ⟨ls.findIdx (fun p => p.id = sline.id), hslt⟩ = sline :=
      eq_of_id_eq hids (List.get_mem ls _ hslt) hsls (by simpa using h0)
    rw [List.getElem?_eq_getElem hslt]
    rw [show ls[ls.findIdx fun p => p.id = sline.id] =
      ls.get ⟨ls.findIdx (fun p => p.id = sline.id), hslt⟩ from rfl, hgel]
  have hsmax : ∀ (j : Nat) (t : BudgetLine), ls[j]? = some t →
      t ∈ buildSubtree ls (ls.length + 1) lineId →
      j ≤ ((buildSubtree ls (ls.length + 1) lineId).map
        (fun l => ls.findIdx (fun p => p.id = l.id))).foldl max 0 := by
    intro j t hj ht
    have : ls.findIdx (fun p => p.id = t.id) = j := hfidx_at j t hj
    rw [← this]
    exact foldl_max_le _ 0 _ (List.mem_map_of_mem _ ht)
  -- the clone list
  have hclones : (buildSubtree ls (ls.length + 1) lineId).map
      (dupClone (dupIdMap (buildSubtree ls (ls.length + 1) lineId) gen)) =
      (buildSubtree ls (ls.length + 1) lineId).enum.map (fun p =>
        { p.2 with
          id := gen p.1,
          parentId := (match p.2.parentId with
            | none => none
            | some q =>
                (match (buildSubtree ls (ls.length + 1) lineId).findIdx?
                    (fun s => s.id = q) with
                | some j => some (gen j)
                | none => some q)) }) := by
    rw [map_eq_enum_map]
    apply List.map_congr_left
    intro p hp
    exact dupClone_formula gen hndT hTne hgen_ne (List.mem_enum_iff_getElem?.mp hp)
  -- the output equation
  have hout : duplicateLine gen lineId ls =
      ls.take (((buildSubtree ls (ls.length + 1) lineId).map
        (fun l => ls.findIdx (fun p => p.id = l.id))).foldl max 0 + 1) ++
      (buildSubtree ls (ls.length + 1) lineId).enum.map (fun p =>
        { p.2 with
          id := gen p.1,
          parentId := (match p.2.parentId with
            | none => none
            | some q =>
                (match (buildSubtree ls (ls.length + 1) lineId).findIdx?
                    (fun s => s.id = q) with
                | some j => some (gen j)
                | none => some q)) }) ++
      ls.drop (((buildSubtree ls (ls.length + 1) lineId).map
        (fun l => ls.findIdx (fun p => p.id = l.id))).foldl max 0 + 1) := by
    rw [duplicateLine, hv]
    simp only [hindices, hclones]
    rw [if_pos hindnil]
    have hnat : ∀ n : Nat, ((n : Int) + 1).toNat = n + 1 := fun n => by omega
    rw [hnat]
  refine ⟨hmemspec, hndT,
    ⟨((buildSubtree ls (ls.length + 1) lineId).map
        (fun l => ls.findIdx (fun p => p.id = l.id))).foldl max 0, sline,
      hsat, hsline, hsmax, hout⟩, ?_, ?_⟩
  · rw [hout]
    simp only [List.length_append, List.length_take, List.length_drop,
      List.length_map, List.enum_length]
    omega
  · rw [hout, lineIds, List.map_append, List.map_append]
    have hcloneids : ((buildSubtree ls (ls.length + 1) lineId).enum.map
        (fun (p : Nat × BudgetLine) =>
        { p.2 with
          id := gen p.1,
          parentId := (match p.2.parentId with
            | none => none
            | some q =>
                (match (buildSubtree ls (ls.length + 1) lineId).findIdx?
                    (fun (s : BudgetLine) => s.id = q) with
                | some j => some (gen j)
                | none => some q)) })).map (fun l => l.id) =
        (List.range (buildSubtree ls (ls.length + 1) lineId).length).map gen := by
      rw [List.map_map, ← List.enum_map_fst (buildSubtree ls (ls.length + 1) lineId),
        List.map_map]
      rfl
    rw [hcloneids, List.map_take, List.map_drop]
    refine nodup_take_insert_drop _ _ _ hids
      (List.Nodup.map hgen_inj (List.nodup_range _)) ?_
    intro x hx hx2
    obtain ⟨n, _, hn⟩ := List.mem_map.mp hx
    exact hgen_fresh n (hn ▸ hx2)

/-- C5 counterexample: with a duplicated id in the subtree, the id map's
last write wins, so two clones receive the same generated id — the new
lines are not uniquely identified — and the insertion point falls after the
first namesake, inside the list, rather than after the whole subtree. -/
theorem duplicate_dup_ids_collide :
    duplicateLine (fun n => if n = 0 then "n0" else if n = 1 then "n1" else "n2")
      "p" [
      { id := "p", sectionId := "s" },
      { id := "c", sectionId := "s", parentId := some "p" },
      ({ id := "c", sectionId := "s", parentId := some "p", unit := "kg" } :
        BudgetLine)] =
      [{ id := "p", sectionId := "s" },
       { id := "c", sectionId := "s", parentId := some "p" },
       { id := "n0", sectionId := "s" },
       { id := "n2", sectionId := "s", parentId := some "n0" },
       { id := "n2", sectionId := "s", parentId := some "n0" },
       ({ id := "c", sectionId := "s", parentId := some "p", unit := "kg" } :
         BudgetLine)] ∧
    ¬(lineIds (duplicateLine
      (fun n => if n = 0 then "n0" else if n = 1 then "n1" else "n2")
      "p" [
      { id := "p", sectionId := "s" },
      { id := "c", sectionId := "s", parentId := some "p" },
      ({ id := "c", sectionId := "s", parentId := some "p", unit := "kg" } :
        BudgetLine)])).Nodup := by decide

theorem duplicate_subtree_shape_witness :
    (∀ x, x ∈ buildSubtree [{ id := "p", sectionId := "s" },
      { id := "c", sectionId := "s", parentId := some "p" },
      { id := "e", sectionId := "s" },
      ({ id := "d", sectionId := "s", parentId := some "c" } : BudgetLine)] ([{ id := "p", sectionId := "s" },
      { id := "c", sectionId := "s", parentId := some "p" },
      { id := "e", sectionId := "s" },
      ({ id := "d", sectionId := "s", parentId := some "c" } : BudgetLine)].length + 1) "c" ↔
      x ∈ [{ id := "p", sectionId := "s" },
      { id := "c", sectionId := "s", parentId := some "p" },
      { id := "e", sectionId := "s" },
      ({ id := "d", sectionId := "s", parentId := some "c" } : BudgetLine)] ∧ (x.id = "c" ∨ IsDescendant [{ id := "p", sectionId := "s" },
      { id := "c", sectionId := "s", parentId := some "p" },
      { id := "e", sectionId := "s" },
      ({ id := "d", sectionId := "s", parentId := some "c" } : BudgetLine)] "c" x.id)) ∧
    ((buildSubtree [{ id := "p", sectionId := "s" },
      { id := "c", sectionId := "s", parentId := some "p" },
      { id := "e", sectionId := "s" },
      ({ id := "d", sectionId := "s", parentId := some "c" } : BudgetLine)] ([{ id := "p", sectionId := "s" },
      { id := "c", sectionId := "s", parentId := some "p" },
      { id := "e", sectionId := "s" },
      ({ id := "d", sectionId := "s", parentId := some "c" } : BudgetLine)].length + 1) "c").map (fun l => l.id)).Nodup ∧
    (∃ i s, [{ id := "p", sectionId := "s" },
      { id := "c", sectionId := "s", parentId := some "p" },
      { id := "e", sectionId := "s" },
      ({ id := "d", sectionId := "s", parentId := some "c" } : BudgetLine)][i]? = some s ∧ s ∈ buildSubtree [{ id := "p", sectionId := "s" },
      { id := "c", sectionId := "s", parentId := some "p" },
      { id := "e", sectionId := "s" },
      ({ id := "d", sectionId := "s", parentId := some "c" } : BudgetLine)] ([{ id := "p", sectionId := "s" },
      { id := "c", sectionId := "s", parentId := some "p" },
      { id := "e", sectionId := "s" },
      ({ id := "d", sectionId := "s", parentId := some "c" } : BudgetLine)].length + 1) "c" ∧
      (∀ j t, [{ id := "p", sectionId := "s" },
      { id := "c", sectionId := "s", parentId := some "p" },
      { id := "e", sectionId := "s" },
      ({ id := "d", sectionId := "s", parentId := some "c" } : BudgetLine)][j]? = some t → t ∈ buildSubtree [{ id := "p", sectionId := "s" },
      { id := "c", sectionId := "s", parentId := some "p" },
      { id := "e", sectionId := "s" },
      ({ id := "d", sectionId := "s", parentId := some "c" } : BudgetLine)] ([{ id := "p", sectionId := "s" },
      { id := "c", sectionId := "s", parentId := some "p" },
      { id := "e", sectionId := "s" },
      ({ id := "d", sectionId := "s", parentId := some "c" } : BudgetLine)].length + 1) "c" →
        j ≤ i) ∧
      duplicateLine (fun n => String.mk (List.replicate (n + 1) 'x')) "c" [{ id := "p", sectionId := "s" },
      { id := "c", sectionId := "s", parentId := some "p" },
      { id := "e", sectionId := "s" },
      ({ id := "d", sectionId := "s", parentId := some "c" } : BudgetLine)] =
        [{ id := "p", sectionId := "s" },
      { id := "c", sectionId := "s", parentId := some "p" },
      { id := "e", sectionId := "s" },
      ({ id := "d", sectionId := "s", parentId := some "c" } : BudgetLine)].take (i + 1) ++
        (buildSubtree [{ id := "p", sectionId := "s" },
      { id := "c", sectionId := "s", parentId := some "p" },
      { id := "e", sectionId := "s" },
      ({ id := "d", sectionId := "s", parentId := some "c" } : BudgetLine)] ([{ id := "p", sectionId := "s" },
      { id := "c", sectionId := "s", parentId := some "p" },
      { id := "e", sectionId := "s" },
      ({ id := "d", sectionId := "s", parentId := some "c" } : BudgetLine)].length + 1) "c").enum.map (fun p =>
          { p.2 with
            id := (fun n => String.mk (List.replicate (n + 1) 'x')) p.1,
            parentId := (match p.2.parentId with
              | none => none
              | some q =>
                  (match (buildSubtree [{ id := "p", sectionId := "s" },
      { id := "c", sectionId := "s", parentId := some "p" },
      { id := "e", sectionId := "s" },
      ({ id := "d", sectionId := "s", parentId := some "c" } : BudgetLine)] ([{ id := "p", sectionId := "s" },
      { id := "c", sectionId := "s", parentId := some "p" },
      { id := "e", sectionId := "s" },
      ({ id := "d", sectionId := "s", parentId := some "c" } : BudgetLine)].length + 1) "c").findIdx?
                      (fun s => s.id = q) with
                  | some j => some ((fun n => String.mk (List.replicate (n + 1) 'x')) j)
                  | none => some q)) }) ++
        [{ id := "p", sectionId := "s" },
      { id := "c", sectionId := "s", parentId := some "p" },
      { id := "e", sectionId := "s" },
      ({ id := "d", sectionId := "s", parentId := some "c" } : BudgetLine)].drop (i + 1)) ∧
    (duplicateLine (fun n => String.mk (List.replicate (n + 1) 'x')) "c" [{ id := "p", sectionId := "s" },
      { id := "c", sectionId := "s", parentId := some "p" },
      { id := "e", sectionId := "s" },
      ({ id := "d", sectionId := "s", parentId := some "c" } : BudgetLine)]).length =
      [{ id := "p", sectionId := "s" },
      { id := "c", sectionId := "s", parentId := some "p" },
      { id := "e", sectionId := "s" },
      ({ id := "d", sectionId := "s", parentId := some "c" } : BudgetLine)].length + (buildSubtree [{ id := "p", sectionId := "s" },
      { id := "c", sectionId := "s", parentId := some "p" },
      { id := "e", sectionId := "s" },
      ({ id := "d", sectionId := "s", parentId := some "c" } : BudgetLine)] ([{ id := "p", sectionId := "s" },
      { id := "c", sectionId := "s", parentId := some "p" },
      { id := "e", sectionId := "s" },
      ({ id := "d", sectionId := "s", parentId := some "c" } : BudgetLine)].length + 1) "c").length ∧
    (lineIds (duplicateLine (fun n => String.mk (List.replicate (n + 1) 'x')) "c" [{ id := "p", sectionId := "s" },
      { id := "c", sectionId := "s", parentId := some "p" },
      { id := "e", sectionId := "s" },
      ({ id := "d", sectionId := "s", parentId := some "c" } : BudgetLine)])).Nodup := by
  refine duplicate_subtree_shape _ (by decide) (by decide)
    (fun k => if k = "p" then 3 else if k = "c" then 2 else if k = "d" then 1 else 0)
    (by unfold RankedForest; decide) _ "c" (by decide) ?_ ?_ ?_
  · intro a b h
    have h2 := congrArg String.data h
    have h3 := congrArg List.length h2
    simpa using h3
  · intro i hmemi
    have hset : lineIds [{ id := "p", sectionId := "s" },
      { id := "c", sectionId := "s", parentId := some "p" },
      { id := "e", sectionId := "s" },
      ({ id := "d", sectionId := "s", parentId := some "c" } : BudgetLine)] =
        ["p", "c", "e", "d"] := by decide
    rw [hset] at hmemi
    have hhead : ∀ y : String,
        String.mk (List.replicate (i + 1) (Char.ofNat 120)) = y →
        y.data.head? = some (Char.ofNat 120) := by
      intro y hy
      rw [← hy]
      rfl
    simp only [List.mem_cons, List.not_mem_nil, or_false] at hmemi
    rcases hmemi with h | h | h | h
    · exact absurd (hhead _ h) (by decide)
    · exact absurd (hhead _ h) (by decide)
    · exact absurd (hhead _ h) (by decide)
    · exact absurd (hhead _ h) (by decide)
  · intro i h
    have := congrArg (fun s => s.data.length) h
    simpa using this

end BudgetApp